import Mathlib

/-!
# Verification of `astro_ndslice` slice/offset arithmetic

Shallow embedding of the core of the `astro-ndslice` repository
(`offset.py`, `slices.py`, `list.py`) and proofs of the specification
claims about it.

Modelling conventions:
* A numpy 2-D matrix (`nimage × ndim`) is a `List (List ℚ)` (offsets,
  real-valued) or `List (List ℤ)` (shapes, integer-valued); rows are
  images, columns are axes.  Rectangularity (`Rect`) is a hypothesis of
  the theorems, matching numpy's well-formedness requirement.
* `np.around` (round half to even) is the function `around : ℚ → ℤ`.
* Python exceptions are the constructors of `NdError`, and fallible
  functions return `Except NdError _`.
* Python strings are rendered/parsed through `List Char`, converted to
  `String` via `List.asString` at the API boundary.
-/

set_option autoImplicit false

deriving instance DecidableEq for Except

/- Core marks rational arithmetic `@[irreducible]`, which blocks `decide`
on concrete rational inputs; restore the default reducibility so that
witnesses evaluate. -/
set_option allowUnsafeReducibility true in
attribute [semireducible] Rat.sub Rat.add Rat.mul Rat.div Rat.inv Rat.neg

namespace AstroNdslice

universe u v w
variable {α : Type u} {β : Type v} {γ : Type w}

/-- The error taxonomy of the library (§7 of the spec): each constructor
stands for one class of `ValueError`/`TypeError`/`IndexError` raised by
the source. -/
inductive NdError where
  | invalidArgument : NdError
  | invalidLength : NdError
  | invalidShape : NdError
  | invalidIndex : NdError
  | invalidFormat : NdError
  | overlap : NdError
  | indexError : NdError
  deriving DecidableEq, Repr

/-- `np.around` with `decimals=0`: round to the nearest integer, ties to
the nearest even integer (banker's rounding). -/
def around (q : ℚ) : ℤ :=
  if q - (⌊q⌋ : ℚ) < 1/2 then ⌊q⌋
  else if 1/2 < q - (⌊q⌋ : ℚ) then ⌊q⌋ + 1
  else if ⌊q⌋ % 2 = 0 then ⌊q⌋ else ⌊q⌋ + 1

/-! ## Column-wise reductions on list matrices

`np.min(M, axis=0)` / `np.max(M, axis=0)` on a rectangular matrix is the
per-column fold of `min` / `max` over the rows.  `reduce1` is the fold of
a binary operation over a nonempty list (the value at `[]` is the unused
default `d`). -/

/-- Fold a binary operation over a list, starting from its head; `d` is
returned for the (never-used) empty list. -/
def reduce1 (f : α → α → α) (l : List α) (d : α) : α :=
  match l with
  | [] => d
  | x :: xs => xs.foldl f x

/-- Column `k` of a list matrix (entries out of range give `d`). -/
def column (M : List (List α)) (k : ℕ) (d : α) : List α :=
  M.map (fun r => r.getD k d)

/-- `np.<f>(M, axis=0)` for an associative-commutative reduction `f` on a
rectangular matrix: one `reduce1` per column. -/
def colReduce (f : α → α → α) (M : List (List α)) (d : α) : List α :=
  (List.range (M.headD []).length).map (fun k => reduce1 f (column M k d) d)

/-- All rows of the matrix have length `D` (numpy rectangularity). -/
def Rect (M : List (List α)) (D : ℕ) : Prop :=
  ∀ r ∈ M, r.length = D

instance (M : List (List α)) (D : ℕ) : Decidable (Rect M D) :=
  inferInstanceAs (Decidable (∀ r ∈ M, r.length = D))

/-! ## `regularize_offsets` (offset.py) -/

/-- Offset matrix: one row of rational pixel offsets per image. -/
abbrev Mat := List (List ℚ)

/-- `np.flip(M, -1)` applied when the axis-order flag says the rows are
in xyz order: reverse every row. -/
def flipRows (M : List (List α)) (xyz : Bool) : List (List α) :=
  if xyz then M.map List.reverse else M

/-- `regularize_offsets` from `offset.py` without `intify_offsets`:
flip each row to row-major order if `offset_order_xyz`, then subtract the
column-wise minimum (`_offsets - np.min(_offsets, axis=0)`). -/
def regularize_offsets (offsets : Mat) (offset_order_xyz : Bool) : Mat :=
  let o := flipRows offsets offset_order_xyz
  let mins := colReduce min o 0
  o.map (fun r => List.zipWith (fun x m => x - m) r mins)

/-- `regularize_offsets` with `intify_offsets=True`: additionally
`np.around(...).astype(int)` on every entry. -/
def regularize_offsets_int (offsets : Mat) (offset_order_xyz : Bool) :
    List (List ℤ) :=
  (regularize_offsets offsets offset_order_xyz).map (List.map around)

/-- Cast an integer matrix to a rational matrix (numpy implicit
int-to-float promotion under mixed arithmetic). -/
def matQ (M : List (List ℤ)) : Mat := M.map (List.map (fun z : ℤ => (z : ℚ)))

/-- Entrywise sum of two matrices (numpy `A + B` on equal shapes). -/
def addMat [Add α] (A B : List (List α)) : List (List α) :=
  List.zipWith (List.zipWith (fun x y => x + y)) A B

/-! ## `offseted_shape` (offset.py) -/

/-- The `_offsets` local of `offseted_shape`: the regularized offsets,
rounded to integers when `intify_offsets`. -/
def offseted_offsets (offsets : Mat) (offset_order_xyz intify_offsets : Bool) :
    Mat :=
  if intify_offsets then
    matQ (regularize_offsets_int offsets offset_order_xyz)
  else regularize_offsets offsets offset_order_xyz

/-- `offseted_shape` from `offset.py`.  Normalizes the offsets with
`regularize_offsets` (rounding them when `intify_offsets`), then computes
the combined shape: `outer` takes per axis
`around (max over images (shape + offset))`; `inner` takes
`around (min over images (offset + shape) - max over images (offset))`
and raises the `Overlap` error when that count is negative on some axis.
Any other `method` raises `InvalidArgument`.  The returned offsets are
flipped back to xyz order when `offset_order_xyz` and not
`pythonize_offsets`. -/
def offseted_shape (shapes : List (List ℤ)) (offsets : Mat) (method : String)
    (offset_order_xyz intify_offsets pythonize_offsets : Bool) :
    Except NdError (Mat × List ℤ) :=
  let _offsets : Mat := offseted_offsets offsets offset_order_xyz intify_offsets
  let ret : Mat → List ℤ → Mat × List ℤ := fun o s =>
    (if offset_order_xyz && !pythonize_offsets then o.map List.reverse else o, s)
  if method = "outer" then
    let shape_out := (colReduce max (addMat (matQ shapes) _offsets) 0).map around
    .ok (ret _offsets shape_out)
  else if method = "inner" then
    let lower_bound := colReduce max _offsets 0
    let upper_bound := colReduce min (addMat _offsets (matQ shapes)) 0
    let npix := List.zipWith (fun u l => u - l) upper_bound lower_bound
    let shape_out := npix.map around
    if npix.any (fun x => decide (x < 0)) then .error .overlap
    else .ok (ret _offsets shape_out)
  else .error .invalidArgument

/-! ## `offsets2slice` (offset.py) -/

/-- A Python `slice(start, stop, step)` value; `none` models `None`. -/
structure PySlice where
  start : Option ℤ
  stop : Option ℤ
  step : Option ℤ
  deriving DecidableEq, Repr

/-- Decimal digits of a natural number, recursion on the value (used for
reasoning). -/
def natToCharsR (n : ℕ) : List Char :=
  if _h : n < 10 then [Char.ofNat (48 + n)]
  else natToCharsR (n / 10) ++ [Char.ofNat (48 + n % 10)]
  decreasing_by exact Nat.div_lt_self (by omega) (by omega)

/-- Decimal digits, fuel-based structural recursion (kernel-reducible);
the fuel is never exhausted when it starts at the value itself. -/
def natToCharsGo : ℕ → ℕ → List Char → List Char
  | 0, n, acc => Char.ofNat (48 + n % 10) :: acc
  | fuel + 1, n, acc =>
    if n < 10 then Char.ofNat (48 + n) :: acc
    else natToCharsGo fuel (n / 10) (Char.ofNat (48 + n % 10) :: acc)

/-- Decimal digits of a natural number (`"%d"` rendering). -/
def natToChars (n : ℕ) : List Char := natToCharsGo n n []

/-- Python `f"{i:d}"` for an integer, as a character list. -/
def intToChars (i : ℤ) : List Char :=
  if i < 0 then '-' :: natToChars i.natAbs else natToChars i.toNat

/-- The rendering the spec describes for one axis of a FITS section
string: the characters of `start+1`, a colon, the characters of `stop`
(claim-side definition, following the spec's words). -/
def renderSliceFits (s : PySlice) : List Char :=
  intToChars (s.start.getD 0 + 1) ++ ':' :: intToChars (s.stop.getD 0)


/-- numpy shape equality of two (rectangular) list matrices. -/
def sameShapeB (A B : List (List ℤ)) : Bool :=
  A.length == B.length && (List.zip A B).all (fun p => p.1.length == p.2.length)

/-- The arithmetic core of `offsets2slice` from `offset.py`: flip the
shapes to row-major order if needed, normalize the offsets with
`intify_offsets=True`, check the two matrices have the same numpy shape
(`InvalidShape`), and compute the per-image `(starts, stops)` rows:
`outer` uses `starts = offsets`, `stops = offsets + shapes`; `inner`
checks overlap (`Overlap` when `min(offsets + shapes) <= max(offsets)` on
some axis) and uses `starts = offmax - offsets`,
`stops = min(offsets + shapes) - offsets`.  Any other `method` raises
`InvalidArgument`. -/
def offsets2slice_startstops (shapes : List (List ℤ)) (offsets : Mat)
    (method : String) (shape_order_xyz offset_order_xyz : Bool) :
    Except NdError (List (List ℤ × List ℤ)) :=
  let _shapes := flipRows shapes shape_order_xyz
  let _offsets := regularize_offsets_int offsets offset_order_xyz
  if ¬ sameShapeB _shapes _offsets then .error .invalidShape
  else if method = "outer" then
    .ok (List.zip _offsets (addMat _offsets _shapes))
  else if method = "inner" then
    let offmax := colReduce max _offsets 0
    let upper := colReduce min (addMat _offsets _shapes) 0
    if (List.zip upper offmax).any (fun p => decide (p.1 ≤ p.2)) then
      .error .overlap
    else
      let starts := _offsets.map (fun r => List.zipWith (fun m x => m - x) offmax r)
      let stops := _offsets.map (fun r => List.zipWith (fun u x => u - x) upper r)
      .ok (List.zip starts stops)
  else .error .invalidArgument

/-- `offsets2slice` with `fits_convention=False`: per image, the list of
`slice(start, stop, None)` objects, prefixed (for `method='outer'` with
`outer_for_stack`) with the stack-axis slice `slice(i, i+1, None)`. -/
def offsets2slice (shapes : List (List ℤ)) (offsets : Mat) (method : String)
    (shape_order_xyz offset_order_xyz outer_for_stack : Bool) :
    Except NdError (List (List PySlice)) :=
  (offsets2slice_startstops shapes offsets method shape_order_xyz
      offset_order_xyz).map
    (fun ss => ss.enum.map (fun p =>
      (if method = "outer" && outer_for_stack then
        [PySlice.mk (some (p.1 : ℤ)) (some ((p.1 : ℤ) + 1)) none]
      else [])
      ++ (List.zip p.2.1 p.2.2).map (fun q => PySlice.mk (some q.1) (some q.2) none)))

/-- `offsets2slice` with `fits_convention=True`: per image, the string
`'[' + ','.join(tmp[::-1]) + ']'` where `tmp` is the (optional) stack
entry `f"{i+1}:{i+1}"` followed by `f"{start+1}:{stop}"` per axis. -/
def offsets2slice_fits (shapes : List (List ℤ)) (offsets : Mat) (method : String)
    (shape_order_xyz offset_order_xyz outer_for_stack : Bool) :
    Except NdError (List String) :=
  (offsets2slice_startstops shapes offsets method shape_order_xyz
      offset_order_xyz).map
    (fun ss => ss.enum.map (fun p =>
      let tmp : List (List Char) :=
        (if method = "outer" && outer_for_stack then
          [intToChars ((p.1 : ℤ) + 1) ++ ':' :: intToChars ((p.1 : ℤ) + 1)]
        else [])
        ++ (List.zip p.2.1 p.2.2).map (fun q =>
             intToChars (q.1 + 1) ++ ':' :: intToChars q.2)
      (('[' :: List.intercalate [','] tmp.reverse) ++ [']']).asString))

/-! ## `slice_from_string` and `_defitsify_slice` (slices.py)

Python string manipulation is modelled on `List Char`; the `String`
entry point converts with `String.toList`. -/

/-- Python `str.split(sep)` for a one-character separator. -/
def pySplit (c : Char) : List Char → List (List Char)
  | [] => [[]]
  | x :: xs =>
    match pySplit c xs with
    | [] => [[]]
    | r :: rs => if x = c then [] :: r :: rs else (x :: r) :: rs

/-- Python `str.strip(chars)`: drop characters of `cs` from both ends. -/
def stripChars (cs : List Char) (s : List Char) : List Char :=
  ((s.dropWhile (fun c => c ∈ cs)).reverse.dropWhile (fun c => c ∈ cs)).reverse

/-- Python `str.replace(pat, repl)` for a nonempty pattern `p :: ps`:
replace non-overlapping occurrences left to right, not rescanning the
replacement. -/
def replaceSub (p : Char) (ps : List Char) (repl : List Char)
    (s : List Char) : List Char :=
  match s with
  | [] => []
  | c :: cs =>
    if (p :: ps).isPrefixOf (c :: cs) then
      repl ++ replaceSub p ps repl (cs.drop ps.length)
    else c :: replaceSub p ps repl cs
  termination_by s.length
  decreasing_by
  all_goals simp only [List.length_cons, List.length_drop]
  all_goals omega

/-- Python `int(s)` on a nonempty all-digit string. -/
def parseNatChars (l : List Char) : Option ℕ :=
  if l ≠ [] ∧ l.all Char.isDigit then
    some (l.foldl (fun a c => 10 * a + (c.toNat - 48)) 0)
  else none

/-- Python `int(s)` with an optional sign. -/
def parseIntChars (l : List Char) : Option ℤ :=
  match l with
  | [] => none
  | c :: rest =>
    if c = '-' then (parseNatChars rest).map (fun n : ℕ => -(n : ℤ))
    else if c = '+' then (parseNatChars rest).map (fun n : ℕ => (n : ℤ))
    else (parseNatChars (c :: rest)).map (fun n : ℕ => (n : ℤ))

/-- Python `slice(*args)` for 1 to 3 arguments; other arities raise. -/
def mkSlice : List (Option ℤ) → Except NdError PySlice
  | [a] => .ok (PySlice.mk none a none)
  | [a, b] => .ok (PySlice.mk a b none)
  | [a, b, c] => .ok (PySlice.mk a b c)
  | _ => .error .invalidFormat

/-- One comma-delimited field of a section string:
`[int(arg) if arg else None for arg in field.split(':')]` fed to
`slice(*args)`.  A malformed integer raises (Python `ValueError`). -/
def parseField (f : List Char) : Except NdError PySlice := do
  let args ← (pySplit ':' f).mapM (fun p =>
    if p = [] then .ok none
    else match parseIntChars p with
      | some v => .ok (some v)
      | none => .error .invalidFormat)
  mkSlice args

/-- The body of the loop of `_defitsify_slice` from `slices.py`, for one
slice: subtract 1 from `start` (`InvalidIndex` when the result is
negative), reject negative `stop` (`InvalidIndex`), and reinterpret
`start > stop` as a reversed range with negated step, using `None`
instead of `-1` when the FITS stop is `1`. -/
def defitsify_one (a : PySlice) : Except NdError PySlice :=
  let new_start := a.start.map (fun s => s - 1)
  if new_start.any (fun ns => decide (ns < 0)) then .error .invalidIndex
  else if a.stop.any (fun st => decide (st < 0)) then .error .invalidIndex
  else
    match a.start, a.stop with
    | some s, some t =>
      if s > t then
        .ok (PySlice.mk new_start (if t = 1 then none else some (t - 2))
          (some (match a.step with | none => -1 | some st => -st)))
      else .ok (PySlice.mk new_start a.stop a.step)
    | _, _ => .ok (PySlice.mk new_start a.stop a.step)

/-- `_defitsify_slice` from `slices.py`: apply `defitsify_one` to the
slices in reversed (row-major) order. -/
def _defitsify_slice (slices : List PySlice) : Except NdError (List PySlice) :=
  slices.reverse.mapM defitsify_one

/-- `slice_from_string` from `slices.py`: strip spaces, require enclosing
brackets (`InvalidFormat`), strip them, substitute the FITS wildcards
(`'-*:' -> '::-'`, `'-*' -> '::-1'`, `'*' -> ':'`) when
`fits_convention`, split on commas, parse each field into a slice, and
convert from FITS convention with `_defitsify_slice` when requested. -/
def slice_from_string (string : String) (fits_convention : Bool) :
    Except NdError (List PySlice) :=
  let no_space := string.toList.filter (fun c => c ≠ ' ')
  if no_space = [] then .ok []
  else if ¬ (no_space.head? = some '[' ∧ no_space.getLast? = some ']') then
    .error .invalidFormat
  else
    let stripped := stripChars ['[', ']'] no_space
    let stripped :=
      if fits_convention then
        replaceSub '*' [] [':']
          (replaceSub '-' ['*'] [':', ':', '-', '1']
            (replaceSub '-' ['*', ':'] [':', ':', '-'] stripped))
      else stripped
    match (pySplit ',' stripped).mapM parseField with
    | .error e => .error e
    | .ok slices =>
      if fits_convention then _defitsify_slice slices else .ok slices

/-! ## `listify`, `ndfy`, `bezel2slice`, `slicefy` (list.py, slices.py) -/

/-- A "broadcastable value" fed to `listify`: Python `None`, a scalar, or
a sequence. -/
inductive BVal (α : Type u) where
  | bnone : BVal α
  | bscalar (a : α) : BVal α
  | bseq (l : List α) : BVal α
  deriving DecidableEq, Repr

/-- `_listify_single` from `list.py` with `none2list=True` and
`scalar2list=True` (the flags used on the multi-input path): `None`
becomes `[None]`, a scalar is wrapped, a sequence is kept.  Elements of
the result are `Option α` so that a bare `None` input stays
representable. -/
def listify_single (o : BVal α) : List (Option α) :=
  match o with
  | .bnone => [none]
  | .bscalar a => [some a]
  | .bseq l => l.map some

/-- The multi-input path of `listify` from `list.py` (default flags):
reduce each input to a sequence, require every length to be 1 or the
maximum length (`InvalidLength` otherwise), then replicate the length-1
sequences to the maximum length. -/
def listify_multi (objs : List (BVal α)) :
    Except NdError (List (List (Option α))) :=
  let objlists := objs.map listify_single
  let lengths := objlists.map List.length
  let length := lengths.foldl max 0
  if lengths.all (fun n => n == 1 || n == length) then
    .ok (objlists.map (fun l =>
      if l.length = 1 then List.replicate length (l.headD none) else l))
  else .error .invalidLength

/-- `ndfy` from `list.py`, specialized to an `item` already reduced to a
list with `None` elements already defaulted (the form used by
`slicefy`): return the list if it has the requested length, replicate a
singleton, and raise `InvalidLength` otherwise. -/
def ndfy (item : List α) (length : ℕ) : Except NdError (List α) :=
  if item.length = length then .ok item
  else
    match item with
    | [x] => .ok (List.replicate length x)
    | _ => .error .invalidLength

/-- `bezel2slice` from `slices.py`: reverse the bezel list when
`order_xyz`, then convert each `[lower, upper]` pair to
`slice(lower, None if upper == 0 else -upper)`. -/
def bezel2slice (bezels : List (List ℤ)) (order_xyz : Bool) : List PySlice :=
  (if order_xyz then bezels.reverse else bezels).map (fun b =>
    PySlice.mk (some (b.getD 0 0))
      (if b.getD 1 0 = 0 then none else some (-(b.getD 1 0))) none)

/-- A `rule` accepted by `slicefy`: `None`, a section string, a single
integer, a list of integers, a single slice, or a list of slices.
(A list of section strings, which `slicefy` also accepts, is outside the
scope of the claims and omitted.) -/
inductive Rule where
  | rnone : Rule
  | rstr (s : String) : Rule
  | rint (n : ℤ) : Rule
  | rints (l : List ℤ) : Rule
  | rslice (s : PySlice) : Rule
  | rslices (l : List PySlice) : Rule

/-- `slicefy` from `slices.py`, dispatching on the form of `rule` as the
source does with `isinstance`/`is_list_like`:
`None` gives `ndim` full slices; a string is delegated to
`slice_from_string` with FITS convention on; a list whose first element
is a slice, or a single slice, is broadcast by `ndfy` and returned
as-is; an integer or a list of integers is built into bezels
(`ndfy([ndfy(b, 2, default=0) for b in listify(rule)], ndim)`) and
passed to `bezel2slice`.  An empty integer list raises Python
`IndexError` at `rule[0]`. -/
def slicefy (rule : Rule) (ndim : ℕ) (order_xyz : Bool) :
    Except NdError (List PySlice) :=
  match rule with
  | .rnone => .ok (List.replicate ndim (PySlice.mk none none none))
  | .rstr s => slice_from_string s true
  | .rints [] => .error .indexError
  | .rints l => do
    let pairs ← l.mapM (fun b => ndfy [b] 2)
    let bezels ← ndfy pairs ndim
    .ok (bezel2slice bezels order_xyz)
  | .rslices l => ndfy l ndim
  | .rslice s => ndfy [s] ndim
  | .rint n => do
    let pairs ← [n].mapM (fun b => ndfy [b] 2)
    let bezels ← ndfy pairs ndim
    .ok (bezel2slice bezels order_xyz)

/-- The claim-side notion "the result is `bezel2slice` of some bezel
pairs" (with either axis order). -/
def isBezelOutput (out : List PySlice) : Prop :=
  ∃ bezels xyz, bezel2slice bezels xyz = out


/-! ## Structural lemmas about the embedding -/

theorem floor_le_around (q : ℚ) : ⌊q⌋ ≤ around q := by
  unfold around
  split_ifs <;> omega

theorem around_le_floor_add_one (q : ℚ) : around q ≤ ⌊q⌋ + 1 := by
  unfold around
  split_ifs <;> omega

theorem around_nonneg (q : ℚ) (hq : 0 ≤ q) : 0 ≤ around q :=
  le_trans (Int.le_floor.mpr (by exact_mod_cast hq)) (floor_le_around q)

theorem around_intCast (n : ℤ) : around (n : ℚ) = n := by
  unfold around
  rw [Int.floor_intCast]
  norm_num

/-- `around` is monotone: rounding preserves the order of rationals. -/
theorem around_mono {p q : ℚ} (h : p ≤ q) : around p ≤ around q := by
  rcases lt_or_eq_of_le (Int.floor_le_floor h) with hf | hf
  · calc around p ≤ ⌊p⌋ + 1 := around_le_floor_add_one p
      _ ≤ ⌊q⌋ := hf
      _ ≤ around q := floor_le_around q
  · -- same floor: compare the fractional parts
    have hpq : p - (⌊p⌋ : ℚ) ≤ q - (⌊q⌋ : ℚ) := by rw [hf]; linarith
    unfold around
    rw [hf]
    split_ifs <;> first | omega | linarith

theorem colReduce_length (f : α → α → α) (M : List (List α)) (d : α) :
    (colReduce f M d).length = (M.headD []).length := by
  simp [colReduce]

theorem colReduce_getD (f : α → α → α) (M : List (List α)) (d : α) (k : ℕ)
    (hk : k < (M.headD []).length) :
    (colReduce f M d).getD k d = reduce1 f (column M k d) d := by
  unfold colReduce
  rw [List.getD_eq_getElem?_getD, List.getElem?_map, List.getElem?_range hk]
  rfl

theorem getD_zipWith (f : α → β → γ) (l : List α) (l' : List β) (k : ℕ)
    (da : α) (db : β) (dc : γ) (h : k < l.length) (h' : k < l'.length) :
    (List.zipWith f l l').getD k dc = f (l.getD k da) (l'.getD k db) := by
  induction l generalizing l' k with
  | nil => simp at h
  | cons x xs ih =>
    cases l' with
    | nil => simp at h'
    | cons y ys =>
      cases k with
      | zero => rfl
      | succ n =>
        simp only [List.zipWith_cons_cons, List.getD_cons_succ]
        exact ih ys n (Nat.lt_of_succ_lt_succ h) (Nat.lt_of_succ_lt_succ h')

section MinMaxFolds

variable [LinearOrder α]

theorem foldl_min_le_init (l : List α) (a : α) : l.foldl min a ≤ a := by
  induction l generalizing a with
  | nil => exact le_refl a
  | cons x xs ih => exact le_trans (ih (min a x)) (min_le_left a x)

theorem foldl_min_le_mem (l : List α) (a x : α) (hx : x ∈ l) :
    l.foldl min a ≤ x := by
  induction l generalizing a with
  | nil => simp at hx
  | cons y ys ih =>
    rcases List.mem_cons.mp hx with rfl | hmem
    · exact le_trans (foldl_min_le_init ys (min a x)) (min_le_right a x)
    · exact ih (min a y) hmem

theorem init_le_foldl_max (l : List α) (a : α) : a ≤ l.foldl max a := by
  induction l generalizing a with
  | nil => exact le_refl a
  | cons x xs ih => exact le_trans (le_max_left a x) (ih (max a x))

theorem mem_le_foldl_max (l : List α) (a x : α) (hx : x ∈ l) :
    x ≤ l.foldl max a := by
  induction l generalizing a with
  | nil => simp at hx
  | cons y ys ih =>
    rcases List.mem_cons.mp hx with rfl | hmem
    · exact le_trans (le_max_right a x) (init_le_foldl_max ys (max a x))
    · exact ih (max a y) hmem

theorem foldl_min_mem (l : List α) (a : α) : l.foldl min a ∈ a :: l := by
  induction l generalizing a with
  | nil => simp [List.foldl]
  | cons x xs ih =>
    rcases List.mem_cons.mp (ih (min a x)) with h | h
    · rcases min_choice a x with hc | hc
      · exact List.mem_cons.mpr (Or.inl (by rw [List.foldl, h, hc]))
      · exact List.mem_cons.mpr (Or.inr (List.mem_cons.mpr (Or.inl (by rw [List.foldl, h, hc]))))
    · exact List.mem_cons.mpr (Or.inr (List.mem_cons.mpr (Or.inr h)))

theorem foldl_max_mem (l : List α) (a : α) : l.foldl max a ∈ a :: l := by
  induction l generalizing a with
  | nil => simp [List.foldl]
  | cons x xs ih =>
    rcases List.mem_cons.mp (ih (max a x)) with h | h
    · rcases max_choice a x with hc | hc
      · exact List.mem_cons.mpr (Or.inl (by rw [List.foldl, h, hc]))
      · exact List.mem_cons.mpr (Or.inr (List.mem_cons.mpr (Or.inl (by rw [List.foldl, h, hc]))))
    · exact List.mem_cons.mpr (Or.inr (List.mem_cons.mpr (Or.inr h)))

theorem reduce1_min_le_mem (l : List α) (d x : α) (hx : x ∈ l) :
    reduce1 min l d ≤ x := by
  cases l with
  | nil => simp at hx
  | cons y ys =>
    rcases List.mem_cons.mp hx with rfl | hmem
    · exact foldl_min_le_init ys x
    · exact foldl_min_le_mem ys y x hmem

theorem mem_le_reduce1_max (l : List α) (d x : α) (hx : x ∈ l) :
    x ≤ reduce1 max l d := by
  cases l with
  | nil => simp at hx
  | cons y ys =>
    rcases List.mem_cons.mp hx with rfl | hmem
    · exact init_le_foldl_max ys x
    · exact mem_le_foldl_max ys y x hmem

theorem reduce1_min_mem (l : List α) (d : α) (hl : l ≠ []) :
    reduce1 min l d ∈ l := by
  cases l with
  | nil => exact absurd rfl hl
  | cons y ys => exact foldl_min_mem ys y

theorem reduce1_max_mem (l : List α) (d : α) (hl : l ≠ []) :
    reduce1 max l d ∈ l := by
  cases l with
  | nil => exact absurd rfl hl
  | cons y ys => exact foldl_max_mem ys y

theorem le_reduce1_min (l : List α) (d c : α) (hl : l ≠ [])
    (h : ∀ x ∈ l, c ≤ x) : c ≤ reduce1 min l d :=
  h _ (reduce1_min_mem l d hl)

theorem reduce1_max_le (l : List α) (d c : α) (hl : l ≠ [])
    (h : ∀ x ∈ l, x ≤ c) : reduce1 max l d ≤ c :=
  h _ (reduce1_max_mem l d hl)

end MinMaxFolds

/-- Subtracting a constant commutes with the min-fold. -/
theorem foldl_min_map_sub (l : List ℚ) (a m : ℚ) :
    (l.map (fun x => x - m)).foldl min (a - m) = l.foldl min a - m := by
  induction l generalizing a with
  | nil => rfl
  | cons x xs ih =>
    simp only [List.map_cons, List.foldl_cons]
    rw [min_sub_sub_right a x m]
    exact ih (min a x)

theorem reduce1_min_map_sub (l : List ℚ) (m : ℚ) (d : ℚ) (hl : l ≠ []) :
    reduce1 min (l.map (fun x => x - m)) d = reduce1 min l d - m := by
  cases l with
  | nil => exact absurd rfl hl
  | cons x xs => exact foldl_min_map_sub xs x m

theorem natToCharsGo_eq (fuel : ℕ) :
    ∀ (n : ℕ) (acc : List Char), n ≤ fuel →
      natToCharsGo fuel n acc = natToCharsR n ++ acc := by
  induction fuel with
  | zero =>
    intro n acc hn
    have hn0 : n = 0 := Nat.le_zero.mp hn
    subst hn0
    rw [natToCharsR]
    rfl
  | succ fuel ih =>
    intro n acc hn
    rw [natToCharsR]
    by_cases h : n < 10
    · simp only [natToCharsGo, h, if_true, dif_pos h]
      rfl
    · simp only [natToCharsGo, h, if_false, dif_neg h]
      rw [ih (n / 10) _ (by
        have := Nat.div_lt_self (by omega : 0 < n) (by omega : 1 < 10)
        omega)]
      simp

theorem natToChars_eq_R (n : ℕ) : natToChars n = natToCharsR n := by
  rw [natToChars, natToCharsGo_eq n n [] (le_refl n), List.append_nil]

theorem getD_map (f : α → β) (l : List α) (i : ℕ) (da : α) (db : β)
    (h : i < l.length) : (l.map f).getD i db = f (l.getD i da) := by
  rw [List.getD_eq_getElem?_getD, List.getElem?_map, List.getElem?_eq_getElem h]
  simp [List.getD_eq_getElem?_getD, List.getElem?_eq_getElem h]

theorem column_ne_nil (M : List (List α)) (k : ℕ) (d : α) (hne : M ≠ []) :
    column M k d ≠ [] := by
  cases M with
  | nil => exact absurd rfl hne
  | cons r rs => simp [column]

theorem column_length (M : List (List α)) (k : ℕ) (d : α) :
    (column M k d).length = M.length := by
  simp [column]

theorem headD_length_of_rect {M : List (List α)} {D : ℕ}
    (hne : M ≠ []) (hrect : Rect M D) : (M.headD []).length = D := by
  cases M with
  | nil => exact absurd rfl hne
  | cons r rs => exact hrect r (List.mem_cons_self r rs)

theorem flipRows_ne_nil (M : List (List α)) (xyz : Bool) (hne : M ≠ []) :
    flipRows M xyz ≠ [] := by
  unfold flipRows
  split
  · simpa using hne
  · exact hne

theorem flipRows_length (M : List (List α)) (xyz : Bool) :
    (flipRows M xyz).length = M.length := by
  unfold flipRows
  split <;> simp

theorem flipRows_rect {M : List (List α)} {D : ℕ} (xyz : Bool)
    (hrect : Rect M D) : Rect (flipRows M xyz) D := by
  unfold flipRows
  split
  · intro r hr
    rcases List.mem_map.mp hr with ⟨s, hs, rfl⟩
    simpa using hrect s hs
  · exact hrect

/-- The `k`-th column minimum used by `regularize_offsets`, as a scalar
fold over the column. -/
theorem colReduce_getD_of_rect (f : α → α → α) {M : List (List α)} {D : ℕ}
    (d : α) (k : ℕ) (hne : M ≠ []) (hrect : Rect M D) (hk : k < D) :
    (colReduce f M d).getD k d = reduce1 f (column M k d) d :=
  colReduce_getD f M d k (by rw [headD_length_of_rect hne hrect]; exact hk)

theorem regularize_offsets_length (M : Mat) (xyz : Bool) :
    (regularize_offsets M xyz).length = M.length := by
  unfold regularize_offsets
  rw [List.length_map, flipRows_length]

theorem regularize_offsets_rect {M : Mat} {D : ℕ} (xyz : Bool)
    (hne : M ≠ []) (hrect : Rect M D) :
    Rect (regularize_offsets M xyz) D := by
  intro r hr
  unfold regularize_offsets at hr
  rcases List.mem_map.mp hr with ⟨s, hs, rfl⟩
  rw [List.length_zipWith, colReduce_length,
    headD_length_of_rect (flipRows_ne_nil M xyz hne) (flipRows_rect xyz hrect),
    flipRows_rect xyz hrect s hs, min_self]

/-- Entry formula for `regularize_offsets`: row `i`, axis `k` is the
flipped input entry minus the column minimum. -/
theorem regularize_offsets_entry (M : Mat) (D : ℕ) (xyz : Bool)
    (hne : M ≠ []) (hrect : Rect M D) (i k : ℕ)
    (hi : i < M.length) (hk : k < D) :
    ((regularize_offsets M xyz).getD i []).getD k 0 =
      ((flipRows M xyz).getD i []).getD k 0 -
        reduce1 min (column (flipRows M xyz) k 0) 0 := by
  have hAne := flipRows_ne_nil M xyz hne
  have hArect := flipRows_rect xyz hrect
  have hiA : i < (flipRows M xyz).length := by rw [flipRows_length]; exact hi
  have hrowmem : (flipRows M xyz).getD i [] ∈ flipRows M xyz := by
    rw [List.getD_eq_getElem _ _ hiA]
    exact List.getElem_mem hiA
  unfold regularize_offsets
  rw [getD_map _ _ i [] [] hiA]
  rw [getD_zipWith _ _ _ k 0 0 0 (by rw [hArect _ hrowmem]; exact hk)
    (by
      rw [colReduce_length, headD_length_of_rect hAne hArect]
      exact hk)]
  rw [colReduce_getD_of_rect min 0 k hAne hArect hk]

/-- Column formula for `regularize_offsets`. -/
theorem regularize_offsets_column (M : Mat) (D : ℕ) (xyz : Bool)
    (hne : M ≠ []) (hrect : Rect M D) (k : ℕ) (hk : k < D) :
    column (regularize_offsets M xyz) k 0 =
      (column (flipRows M xyz) k 0).map
        (fun x => x - reduce1 min (column (flipRows M xyz) k 0) 0) := by
  have hAne := flipRows_ne_nil M xyz hne
  have hArect := flipRows_rect xyz hrect
  unfold regularize_offsets column
  rw [List.map_map, List.map_map]
  apply List.map_congr_left
  intro r hr
  simp only [Function.comp]
  rw [getD_zipWith _ _ _ k 0 0 0 (by rw [hArect r hr]; exact hk)
    (by
      rw [colReduce_length, headD_length_of_rect hAne hArect]
      exact hk)]
  rw [colReduce_getD_of_rect min 0 k hAne hArect hk]
  rfl

theorem matQ_ne_nil {M : List (List ℤ)} (h : M ≠ []) : matQ M ≠ [] := by
  simpa [matQ] using h

theorem matQ_rect {M : List (List ℤ)} {D : ℕ} (h : Rect M D) :
    Rect (matQ M) D := by
  intro r hr
  rcases List.mem_map.mp hr with ⟨s, hs, rfl⟩
  simpa using h s hs

theorem regularize_offsets_ne_nil (M : Mat) (xyz : Bool) (h : M ≠ []) :
    regularize_offsets M xyz ≠ [] := by
  unfold regularize_offsets
  simpa using flipRows_ne_nil M xyz h

theorem regularize_offsets_int_ne_nil (M : Mat) (xyz : Bool) (h : M ≠ []) :
    regularize_offsets_int M xyz ≠ [] := by
  unfold regularize_offsets_int
  simpa using regularize_offsets_ne_nil M xyz h

theorem regularize_offsets_int_rect {M : Mat} {D : ℕ} (xyz : Bool)
    (hne : M ≠ []) (hrect : Rect M D) :
    Rect (regularize_offsets_int M xyz) D := by
  intro r hr
  unfold regularize_offsets_int at hr
  rcases List.mem_map.mp hr with ⟨s, hs, rfl⟩
  simpa using regularize_offsets_rect xyz hne hrect s hs

theorem regularize_offsets_int_length (M : Mat) (xyz : Bool) :
    (regularize_offsets_int M xyz).length = M.length := by
  unfold regularize_offsets_int
  rw [List.length_map, regularize_offsets_length]

theorem offseted_offsets_ne_nil (M : Mat) (xyz intify : Bool) (h : M ≠ []) :
    offseted_offsets M xyz intify ≠ [] := by
  unfold offseted_offsets
  split
  · exact matQ_ne_nil (regularize_offsets_int_ne_nil M xyz h)
  · exact regularize_offsets_ne_nil M xyz h

theorem offseted_offsets_rect {M : Mat} {D : ℕ} (xyz intify : Bool)
    (hne : M ≠ []) (hrect : Rect M D) :
    Rect (offseted_offsets M xyz intify) D := by
  unfold offseted_offsets
  split
  · exact matQ_rect (regularize_offsets_int_rect xyz hne hrect)
  · exact regularize_offsets_rect xyz hne hrect

theorem addMat_ne_nil [Add α] {A B : List (List α)} (hA : A ≠ []) (hB : B ≠ []) :
    addMat A B ≠ [] := by
  cases A with
  | nil => exact absurd rfl hA
  | cons a as =>
    cases B with
    | nil => exact absurd rfl hB
    | cons b bs => simp [addMat]

theorem addMat_rect [Add α] {A B : List (List α)} {D : ℕ}
    (hA : Rect A D) (hB : Rect B D) : Rect (addMat A B) D := by
  induction A generalizing B with
  | nil => intro r hr; simp [addMat] at hr
  | cons a as ih =>
    cases B with
    | nil => intro r hr; simp [addMat] at hr
    | cons b bs =>
      intro r hr
      rcases List.mem_cons.mp hr with rfl | hmem
      · rw [List.length_zipWith, hA a (by simp), hB b (by simp), min_self]
      · exact ih (fun s hs => hA s (List.mem_cons_of_mem a hs))
          (fun s hs => hB s (List.mem_cons_of_mem b hs)) r hmem

theorem column_map_map (f : α → β) {M : List (List α)} {D : ℕ}
    (hrect : Rect M D) (k : ℕ) (hk : k < D) (da : α) (db : β) :
    column (M.map (List.map f)) k db = (column M k da).map f := by
  unfold column
  rw [List.map_map, List.map_map]
  apply List.map_congr_left
  intro r hr
  simp only [Function.comp]
  exact getD_map f r k da db (by rw [hrect r hr]; exact hk)

/-- Successful `mapM` over `Except` determines every entry pointwise. -/
theorem mapM_except_ok_getD {α β : Type} (f : α → Except NdError β)
    (l : List α) (res : List β) (da : α) (db : β)
    (h : l.mapM f = .ok res) :
    res.length = l.length ∧
    ∀ i, i < l.length → f (l.getD i da) = .ok (res.getD i db) := by
  induction l generalizing res with
  | nil =>
    rw [List.mapM_nil] at h
    have hres : res = [] := by
      cases res with
      | nil => rfl
      | cons y ys => cases h
    subst hres
    exact ⟨rfl, fun i hi => absurd hi (by simp)⟩
  | cons x xs ih =>
    rw [List.mapM_cons] at h
    cases hfx : f x with
    | error e =>
      rw [hfx] at h
      cases h
    | ok y =>
      rw [hfx] at h
      cases hxs : xs.mapM f with
      | error e =>
        rw [hxs] at h
        cases h
      | ok ys =>
        rw [hxs] at h
        have hres : res = y :: ys := by
          cases res with
          | nil => cases h
          | cons z zs =>
            have := (Except.ok.injEq _ _).mp h
            rw [this]
        subst hres
        rcases ih ys hxs with ⟨hlen, hpt⟩
        refine ⟨by simp [hlen], ?_⟩
        intro i hi
        cases i with
        | zero => simpa using hfx
        | succ n =>
          simp only [List.getD_cons_succ]
          exact hpt n (by simpa using hi)

theorem addMat_comm [AddCommMonoid α] (A B : List (List α)) :
    addMat A B = addMat B A := by
  unfold addMat
  apply List.zipWith_comm_of_comm
  intro r s
  apply List.zipWith_comm_of_comm
  intro x y
  exact add_comm x y

/-- Every entry of a regularized offset column is nonnegative. -/
theorem regularize_offsets_column_nonneg (M : Mat) (D : ℕ) (xyz : Bool)
    (hne : M ≠ []) (hrect : Rect M D) (k : ℕ) (hk : k < D) :
    ∀ x ∈ column (regularize_offsets M xyz) k 0, 0 ≤ x := by
  intro x hx
  rw [regularize_offsets_column M D xyz hne hrect k hk] at hx
  rcases List.mem_map.mp hx with ⟨y, hy, rfl⟩
  exact sub_nonneg.mpr (reduce1_min_le_mem _ 0 y hy)

/-- Every entry of the (possibly intified) normalized offsets used by
`offseted_shape` is nonnegative. -/
theorem offseted_offsets_column_nonneg (M : Mat) (D : ℕ)
    (xyz intify : Bool) (hne : M ≠ []) (hrect : Rect M D) (k : ℕ)
    (hk : k < D) :
    ∀ x ∈ column (offseted_offsets M xyz intify) k 0, 0 ≤ x := by
  intro x hx
  unfold offseted_offsets at hx
  by_cases hint : intify
  · rw [if_pos hint] at hx
    unfold matQ regularize_offsets_int at hx
    rw [List.map_map] at hx
    rw [show ((fun r => List.map (fun z : ℤ => (z : ℚ)) r) ∘ List.map around)
        = List.map ((fun z : ℤ => (z : ℚ)) ∘ around) from by
      funext r
      simp [List.map_map]] at hx
    rw [column_map_map ((fun z : ℤ => (z : ℚ)) ∘ around)
      (regularize_offsets_rect xyz hne hrect) k hk 0 0] at hx
    rcases List.mem_map.mp hx with ⟨y, hy, rfl⟩
    have h0 : (0 : ℚ) ≤ y :=
      regularize_offsets_column_nonneg M D xyz hne hrect k hk y hy
    simp only [Function.comp]
    exact_mod_cast around_nonneg y h0
  · rw [if_neg hint] at hx
    exact regularize_offsets_column_nonneg M D xyz hne hrect k hk x hx

/-- `offseted_shape` with `method="inner"`, reduced to its two outcomes. -/
theorem offseted_shape_inner_reduced (shapes : List (List ℤ)) (offsets : Mat)
    (oxyz intify pyth : Bool) :
    offseted_shape shapes offsets "inner" oxyz intify pyth =
      (if (List.zipWith (fun u l => u - l)
            (colReduce min (addMat (offseted_offsets offsets oxyz intify)
              (matQ shapes)) 0)
            (colReduce max (offseted_offsets offsets oxyz intify) 0)).any
          (fun x => decide (x < 0)) then .error .overlap
      else .ok
        (if oxyz && !pyth then
          (offseted_offsets offsets oxyz intify).map List.reverse
        else offseted_offsets offsets oxyz intify,
        (List.zipWith (fun u l => u - l)
          (colReduce min (addMat (offseted_offsets offsets oxyz intify)
            (matQ shapes)) 0)
          (colReduce max (offseted_offsets offsets oxyz intify) 0)).map
            around)) := by
  unfold offseted_shape
  rw [if_neg (by decide), if_pos rfl]

/-- `offseted_shape` with `method="outer"` always succeeds, with shape
`around (max over images (shape + offset))` per axis. -/
theorem offseted_shape_outer_reduced (shapes : List (List ℤ)) (offsets : Mat)
    (oxyz intify pyth : Bool) :
    offseted_shape shapes offsets "outer" oxyz intify pyth =
      .ok
        (if oxyz && !pyth then
          (offseted_offsets offsets oxyz intify).map List.reverse
        else offseted_offsets offsets oxyz intify,
        (colReduce max (addMat (matQ shapes)
          (offseted_offsets offsets oxyz intify)) 0).map around) := by
  unfold offseted_shape
  rw [if_pos rfl]

/-! ## Claim theorems -/

/-- C1: for every offset matrix (at least one image, each row a
`D`-vector of rationals) and any axis-order flag, `regularize_offsets`
returns a matrix whose column-wise minimum is exactly 0 on every axis
(both without and with `intify_offsets`); and without `intify_offsets`
the difference between any two images' offsets on any axis is unchanged
by the normalization (relative to the axis-order-converted input). -/
theorem regularize_offsets_min_zero_and_rel_diffs
    (M : Mat) (D : ℕ) (xyz : Bool) (hne : M ≠ []) (hrect : Rect M D) :
    (∀ k, k < D → reduce1 min (column (regularize_offsets M xyz) k 0) 0 = 0) ∧
    (∀ k, k < D →
      reduce1 min (column (regularize_offsets_int M xyz) k 0) 0 = 0) ∧
    (∀ i j k, i < M.length → j < M.length → k < D →
      ((regularize_offsets M xyz).getD i []).getD k 0 -
        ((regularize_offsets M xyz).getD j []).getD k 0 =
      ((flipRows M xyz).getD i []).getD k 0 -
        ((flipRows M xyz).getD j []).getD k 0) := by
  have hAne := flipRows_ne_nil M xyz hne
  have hArect := flipRows_rect xyz hrect
  refine ⟨?_, ?_, ?_⟩
  · intro k hk
    rw [regularize_offsets_column M D xyz hne hrect k hk]
    rw [reduce1_min_map_sub _ _ _ (column_ne_nil _ k 0 hAne)]
    exact sub_self _
  · intro k hk
    have hRrect := regularize_offsets_rect xyz hne hrect
    unfold regularize_offsets_int
    rw [column_map_map around hRrect k hk 0 0]
    rw [regularize_offsets_column M D xyz hne hrect k hk]
    rw [List.map_map]
    have hlne := column_ne_nil (flipRows M xyz) k 0 hAne
    have h0 : around (0 : ℚ) = 0 := by simpa using around_intCast 0
    have hmmem : reduce1 min (column (flipRows M xyz) k 0) 0 ∈
        column (flipRows M xyz) k 0 := reduce1_min_mem _ 0 hlne
    have h0mem : (0 : ℤ) ∈ (column (flipRows M xyz) k 0).map
        (fun x => around (x - reduce1 min (column (flipRows M xyz) k 0) 0)) := by
      refine List.mem_map.mpr ⟨_, hmmem, ?_⟩
      rw [sub_self]
      exact h0
    refine le_antisymm (reduce1_min_le_mem _ 0 0 h0mem) ?_
    apply le_reduce1_min _ 0 0 (by
      intro hc
      exact hlne (List.map_eq_nil_iff.mp hc))
    intro y hy
    rcases List.mem_map.mp hy with ⟨x, hx, rfl⟩
    exact around_nonneg _
      (sub_nonneg.mpr (reduce1_min_le_mem _ 0 x hx))
  · intro i j k hi hj hk
    rw [regularize_offsets_entry M D xyz hne hrect i k hi hk,
      regularize_offsets_entry M D xyz hne hrect j k hj hk]
    ring

theorem intToChars_ofNat (n : ℕ) : intToChars (n : ℤ) = natToChars n := by
  unfold intToChars
  rw [if_neg (by omega)]
  simp

/-- C2: the concrete example
`offsets2slice([(10,15),(10,10),(10,10)], [[1,1],[-1,1],[1.9,0]],
method="outer", fits_convention=True)` returns exactly the three strings
of the spec; and in general the FITS rendering emits, per axis, the
string `start+1:stop`, comma-joined in reversed (xyz) order inside
brackets, over exactly the ranges (stack prefix `[i, i+1)` included) of
the non-FITS output. -/
theorem offsets2slice_fits_example_and_rendering :
    offsets2slice_fits [[10,15],[10,10],[10,10]] [[1,1],[-1,1],[19/10,0]]
        "outer" false true true =
      .ok ["[3:17,2:11,1:1]", "[1:10,2:11,2:2]", "[4:13,1:10,3:3]"] ∧
    ∀ (shapes : List (List ℤ)) (offsets : Mat) (method : String)
      (sxyz oxyz stack : Bool),
      offsets2slice_fits shapes offsets method sxyz oxyz stack =
        (offsets2slice shapes offsets method sxyz oxyz stack).map
          (List.map (fun sl =>
            (('[' :: List.intercalate [','] (sl.map renderSliceFits).reverse)
              ++ [']']).asString)) := by
  constructor
  · decide
  · intro shapes offsets method sxyz oxyz stack
    unfold offsets2slice_fits offsets2slice
    cases offsets2slice_startstops shapes offsets method sxyz oxyz with
    | error e => rfl
    | ok ss =>
      simp only [Except.map]
      congr 1
      rw [List.map_map]
      apply List.map_congr_left
      intro p _hp
      simp only [Function.comp]
      by_cases hc : (method = "outer" && stack) = true
      · simp only [hc, if_true, List.map_append, List.map_cons, List.map_nil,
          List.map_map]
        rfl
      · simp only [hc, if_false, List.map_nil, List.nil_append, List.map_map,
          Bool.false_eq_true]
        rfl

/-- Witness for C1 at the spec's concrete example
`regularize_offsets([[0,0,0],[0,1,2],[1,1.5,1]])`. -/
theorem regularize_offsets_min_zero_and_rel_diffs_witness :
    ([[0,0,0],[0,1,2],[1,3/2,1]] : Mat) ≠ [] ∧
    Rect ([[0,0,0],[0,1,2],[1,3/2,1]] : Mat) 3 ∧
    reduce1 min
      (column (regularize_offsets [[0,0,0],[0,1,2],[1,3/2,1]] true) 1 0) 0 = 0 :=
  ⟨by decide, by decide,
    (regularize_offsets_min_zero_and_rel_diffs [[0,0,0],[0,1,2],[1,3/2,1]] 3
      true (by decide) (by decide)).1 1 (by decide)⟩

/-- C4: `offseted_shape` with `method="inner"` fails with the `Overlap`
error iff some axis has `upper < lower` where `lower` is the max over
images of the normalized offset and `upper` the min over images of
(normalized offset + shape); on success the extent on each axis is
`around (upper - lower)`; and the concrete example
`offseted_shape([(10,10)]*2, [(10,10),(-20,-20)], method="inner")`
fails with `Overlap`. -/
theorem offseted_shape_inner_overlap_iff
    (shapes : List (List ℤ)) (offsets : Mat) (D : ℕ)
    (oxyz intify pyth : Bool)
    (hone : offsets ≠ []) (horect : Rect offsets D)
    (hsrect : Rect shapes D) (hlen : shapes.length = offsets.length) :
    ((offseted_shape shapes offsets "inner" oxyz intify pyth =
        .error .overlap ↔
      ∃ k, k < D ∧
        reduce1 min
          (column (addMat (offseted_offsets offsets oxyz intify)
            (matQ shapes)) k 0) 0 <
        reduce1 max (column (offseted_offsets offsets oxyz intify) k 0) 0) ∧
    (∀ offs shp,
      offseted_shape shapes offsets "inner" oxyz intify pyth =
        .ok (offs, shp) →
      shp.length = D ∧ ∀ k, k < D → shp.getD k 0 =
        around (reduce1 min
            (column (addMat (offseted_offsets offsets oxyz intify)
              (matQ shapes)) k 0) 0 -
          reduce1 max
            (column (offseted_offsets offsets oxyz intify) k 0) 0))) ∧
    offseted_shape [[10,10],[10,10]] [[10,10],[-20,-20]] "inner"
      true false true = .error .overlap := by
  have hOne : offseted_offsets offsets oxyz intify ≠ [] :=
    offseted_offsets_ne_nil offsets oxyz intify hone
  have hOrect : Rect (offseted_offsets offsets oxyz intify) D :=
    offseted_offsets_rect oxyz intify hone horect
  have hSne : shapes ≠ [] := by
    intro h
    rw [h] at hlen
    simp only [List.length_nil] at hlen
    exact hone (List.length_eq_zero.mp hlen.symm)
  have hUne : addMat (offseted_offsets offsets oxyz intify) (matQ shapes) ≠ [] :=
    addMat_ne_nil hOne (matQ_ne_nil hSne)
  have hUrect : Rect (addMat (offseted_offsets offsets oxyz intify)
      (matQ shapes)) D := addMat_rect hOrect (matQ_rect hsrect)
  set O := offseted_offsets offsets oxyz intify with hO
  set U := addMat O (matQ shapes) with hU
  set upper := colReduce min U 0 with hupper
  set lower := colReduce max O 0 with hlower
  set npix := List.zipWith (fun u l => u - l) upper lower with hnpix
  have hulen : upper.length = D := by
    rw [hupper, colReduce_length, headD_length_of_rect hUne hUrect]
  have hllen : lower.length = D := by
    rw [hlower, colReduce_length, headD_length_of_rect hOne hOrect]
  have hnlen : npix.length = D := by
    rw [hnpix, List.length_zipWith, hulen, hllen, min_self]
  have hval : ∀ k, k < D → npix.getD k 0 =
      reduce1 min (column U k 0) 0 - reduce1 max (column O k 0) 0 := by
    intro k hk
    rw [hnpix, getD_zipWith _ _ _ k 0 0 0 (by omega) (by omega)]
    rw [hupper, hlower, colReduce_getD_of_rect min 0 k hUne hUrect hk,
      colReduce_getD_of_rect max 0 k hOne hOrect hk]
  have key : npix.any (fun x => decide (x < 0)) = true ↔
      ∃ k, k < D ∧
        reduce1 min (column U k 0) 0 < reduce1 max (column O k 0) 0 := by
    rw [List.any_eq_true]
    constructor
    · rintro ⟨x, hx, hpx⟩
      rcases List.mem_iff_getElem.mp hx with ⟨i, hi, heq⟩
      have hiD : i < D := by omega
      refine ⟨i, hiD, ?_⟩
      have hx0 : x < 0 := of_decide_eq_true hpx
      have hgd : npix.getD i 0 = x := by rw [List.getD_eq_getElem _ _ hi, heq]
      have hvd := hval i hiD
      linarith
    · rintro ⟨k, hk, hlt⟩
      have hk' : k < npix.length := by omega
      refine ⟨npix[k], List.getElem_mem hk', ?_⟩
      apply decide_eq_true
      have h1 : npix.getD k 0 = npix[k] := List.getD_eq_getElem _ _ hk'
      have h2 := hval k hk
      rw [← h1, h2]
      linarith
  have hred : offseted_shape shapes offsets "inner" oxyz intify pyth =
      (if npix.any (fun x => decide (x < 0)) then .error .overlap
       else .ok (if oxyz && !pyth then O.map List.reverse else O,
         npix.map around)) := by
    unfold offseted_shape
    rw [if_neg (by decide), if_pos rfl]
  refine ⟨⟨?_, ?_⟩, by decide⟩
  · rw [hred]
    by_cases hany : npix.any (fun x => decide (x < 0)) = true
    · rw [if_pos hany]
      exact iff_of_true rfl (key.mp hany)
    · rw [if_neg (by simpa using hany)]
      refine iff_of_false (by simp) ?_
      intro hex
      exact hany (key.mpr hex)
  · intro offs shp h
    rw [hred] at h
    by_cases hany : npix.any (fun x => decide (x < 0)) = true
    · rw [if_pos hany] at h
      cases h
    · rw [if_neg (by simpa using hany)] at h
      have hshp : shp = npix.map around := by
        have := (Except.ok.injEq _ _).mp h
        exact (Prod.mk.injEq _ _ _ _).mp this |>.2.symm
      subst hshp
      constructor
      · rw [List.length_map]; exact hnlen
      · intro k hk
        rw [getD_map around npix k 0 0 (by omega), hval k hk]

/-- Witness for C4: the concrete two-image input whose offsets are too
far apart, discharging the well-formedness hypotheses. -/
theorem offseted_shape_inner_overlap_iff_witness :
    ([[10,10],[-20,-20]] : Mat) ≠ [] ∧
    Rect ([[10,10],[-20,-20]] : Mat) 2 ∧
    Rect ([[10,10],[10,10]] : List (List ℤ)) 2 ∧
    ([[10,10],[10,10]] : List (List ℤ)).length =
      ([[10,10],[-20,-20]] : Mat).length ∧
    offseted_shape [[10,10],[10,10]] [[10,10],[-20,-20]] "inner"
      true false true = .error .overlap :=
  ⟨by decide, by decide, by decide, by decide,
    (offseted_shape_inner_overlap_iff [[10,10],[10,10]] [[10,10],[-20,-20]] 2
      true false true (by decide) (by decide) (by decide) (by decide)).2⟩

/-- C6: whenever `offseted_shape` with `method="inner"` succeeds, the
`method="outer"` shape on the same inputs (same flags) is greater than
or equal to the inner shape on every axis. -/
theorem offseted_shape_outer_ge_inner
    (shapes : List (List ℤ)) (offsets : Mat) (D : ℕ)
    (oxyz intify pyth : Bool)
    (hone : offsets ≠ []) (horect : Rect offsets D)
    (hsrect : Rect shapes D) (hlen : shapes.length = offsets.length) :
    ∀ offsI shpI,
      offseted_shape shapes offsets "inner" oxyz intify pyth =
        .ok (offsI, shpI) →
      ∃ offsO shpO,
        offseted_shape shapes offsets "outer" oxyz intify pyth =
          .ok (offsO, shpO) ∧
        shpI.length = D ∧ shpO.length = D ∧
        ∀ k, k < D → shpI.getD k 0 ≤ shpO.getD k 0 := by
  have hOne : offseted_offsets offsets oxyz intify ≠ [] :=
    offseted_offsets_ne_nil offsets oxyz intify hone
  have hOrect : Rect (offseted_offsets offsets oxyz intify) D :=
    offseted_offsets_rect oxyz intify hone horect
  have hshne : shapes ≠ [] := by
    intro h
    rw [h] at hlen
    simp only [List.length_nil] at hlen
    exact hone (List.length_eq_zero.mp hlen.symm)
  have hUne : addMat (offseted_offsets offsets oxyz intify) (matQ shapes)
      ≠ [] := addMat_ne_nil hOne (matQ_ne_nil hshne)
  have hUrect : Rect (addMat (offseted_offsets offsets oxyz intify)
      (matQ shapes)) D := addMat_rect hOrect (matQ_rect hsrect)
  set O := offseted_offsets offsets oxyz intify with hOdef
  set U := addMat O (matQ shapes) with hUdef
  set upper := colReduce min U 0 with hupperdef
  set lower := colReduce max O 0 with hlowerdef
  set npix := List.zipWith (fun u l => u - l) upper lower with hnpixdef
  have hulen : upper.length = D := by
    rw [hupperdef, colReduce_length, headD_length_of_rect hUne hUrect]
  have hllen : lower.length = D := by
    rw [hlowerdef, colReduce_length, headD_length_of_rect hOne hOrect]
  have hnlen : npix.length = D := by
    rw [hnpixdef, List.length_zipWith, hulen, hllen, min_self]
  intro offsI shpI h
  rw [offseted_shape_inner_reduced] at h
  by_cases hany : npix.any (fun x => decide (x < 0)) = true
  · rw [if_pos hany] at h
    cases h
  · rw [if_neg (by simpa using hany)] at h
    have hshp : shpI = npix.map around := by
      have := (Except.ok.injEq _ _).mp h
      exact ((Prod.mk.injEq _ _ _ _).mp this).2.symm
    refine ⟨_, _, offseted_shape_outer_reduced shapes offsets oxyz intify pyth,
      ?_, ?_, ?_⟩
    · rw [hshp, List.length_map, hnlen]
    · rw [List.length_map, colReduce_length, addMat_comm,
        headD_length_of_rect hUne hUrect]
    · intro k hk
      have hInner : shpI.getD k 0 =
          around (reduce1 min (column U k 0) 0 -
            reduce1 max (column O k 0) 0) := by
        rw [hshp, getD_map around npix k 0 0 (by omega)]
        rw [hnpixdef, getD_zipWith _ _ _ k 0 0 0 (by omega) (by omega),
          hupperdef, hlowerdef, colReduce_getD_of_rect min 0 k hUne hUrect hk,
          colReduce_getD_of_rect max 0 k hOne hOrect hk]
      have hOuter : ((colReduce max (addMat (matQ shapes) O) 0).map
          around).getD k 0 = around (reduce1 max (column U k 0) 0) := by
        rw [addMat_comm]
        have hkb : k < (colReduce max U 0).length := by
          rw [colReduce_length, headD_length_of_rect hUne hUrect]
          exact hk
        rw [getD_map around _ k 0 0 hkb,
          colReduce_getD_of_rect max 0 k hUne hUrect hk]
      rw [hInner, hOuter]
      apply around_mono
      have hcolU : column U k 0 ≠ [] := column_ne_nil U k 0 hUne
      have hcolO : column O k 0 ≠ [] := column_ne_nil O k 0 hOne
      have humem : reduce1 min (column U k 0) 0 ∈ column U k 0 :=
        reduce1_min_mem _ 0 hcolU
      have hum : reduce1 min (column U k 0) 0 ≤
          reduce1 max (column U k 0) 0 :=
        mem_le_reduce1_max _ 0 _ humem
      have hl0 : 0 ≤ reduce1 max (column O k 0) 0 :=
        offseted_offsets_column_nonneg offsets D oxyz intify hone horect k hk
          _ (reduce1_max_mem _ 0 hcolO)
      linarith

/-- Witness for C6 at the spec's concrete three-image example. -/
theorem offseted_shape_outer_ge_inner_witness :
    ([[1,1],[-1,1],[19/10,0]] : Mat) ≠ [] ∧
    Rect ([[1,1],[-1,1],[19/10,0]] : Mat) 2 ∧
    Rect ([[10,10],[10,10],[10,10]] : List (List ℤ)) 2 ∧
    ([[10,10],[10,10],[10,10]] : List (List ℤ)).length =
      ([[1,1],[-1,1],[19/10,0]] : Mat).length ∧
    offseted_shape [[10,10],[10,10],[10,10]] [[1,1],[-1,1],[19/10,0]]
      "inner" true false true =
      .ok ([[1,2],[1,0],[0,29/10]], [9, 7]) ∧
    ∃ offsO shpO,
      offseted_shape [[10,10],[10,10],[10,10]] [[1,1],[-1,1],[19/10,0]]
        "outer" true false true = .ok (offsO, shpO) ∧
      ([9, 7] : List ℤ).length = 2 ∧ shpO.length = 2 ∧
      ∀ k, k < 2 → ([9, 7] : List ℤ).getD k 0 ≤ shpO.getD k 0 :=
  ⟨by decide, by decide, by decide, by decide, by decide,
    offseted_shape_outer_ge_inner [[10,10],[10,10],[10,10]]
      [[1,1],[-1,1],[19/10,0]] 2 true false true (by decide) (by decide)
      (by decide) (by decide) [[1,2],[1,0],[0,29/10]] [9, 7] (by decide)⟩

/-- C3: `offsets2slice` with `method="inner"` fails with the `Overlap`
error iff on some axis `min over images (offset + shape) <= max over
images (offset)` (offsets normalized and intified, shapes converted to
row-major order); otherwise it returns, per image and axis, the range
with `start = offmax - offset` and
`stop = min over images (offset + shape) - offset`. -/
theorem offsets2slice_inner_overlap_iff
    (shapes : List (List ℤ)) (offsets : Mat) (D : ℕ)
    (sxyz oxyz stack : Bool)
    (hone : offsets ≠ []) (horect : Rect offsets D)
    (hsrect : Rect shapes D) (hlen : shapes.length = offsets.length) :
    (offsets2slice shapes offsets "inner" sxyz oxyz stack =
        .error .overlap ↔
      ∃ k, k < D ∧
        reduce1 min (column (addMat (regularize_offsets_int offsets oxyz)
          (flipRows shapes sxyz)) k 0) 0 ≤
        reduce1 max
          (column (regularize_offsets_int offsets oxyz) k 0) 0) ∧
    (∀ L, offsets2slice shapes offsets "inner" sxyz oxyz stack = .ok L →
      L.length = offsets.length ∧
      ∀ i k, i < offsets.length → k < D →
        (L.getD i []).getD k (PySlice.mk none none none) =
          PySlice.mk
            (some (reduce1 max
                (column (regularize_offsets_int offsets oxyz) k 0) 0 -
              ((regularize_offsets_int offsets oxyz).getD i []).getD k 0))
            (some (reduce1 min
                (column (addMat (regularize_offsets_int offsets oxyz)
                  (flipRows shapes sxyz)) k 0) 0 -
              ((regularize_offsets_int offsets oxyz).getD i []).getD k 0))
            none) := by
  set OZ := regularize_offsets_int offsets oxyz with hOZdef
  set S := flipRows shapes sxyz with hSdef
  have hOZne : OZ ≠ [] := regularize_offsets_int_ne_nil offsets oxyz hone
  have hOZrect : Rect OZ D := regularize_offsets_int_rect oxyz hone horect
  have hOZlen : OZ.length = offsets.length :=
    regularize_offsets_int_length offsets oxyz
  have hshne : shapes ≠ [] := by
    intro h
    rw [h] at hlen
    simp only [List.length_nil] at hlen
    exact hone (List.length_eq_zero.mp hlen.symm)
  have hSne : S ≠ [] := flipRows_ne_nil shapes sxyz hshne
  have hSrect : Rect S D := flipRows_rect sxyz hsrect
  have hSlen : S.length = shapes.length := flipRows_length shapes sxyz
  have hsame : sameShapeB S OZ = true := by
    unfold sameShapeB
    rw [Bool.and_eq_true]
    refine ⟨beq_iff_eq.mpr (by rw [hSlen, hOZlen, hlen]), ?_⟩
    apply List.all_eq_true.mpr
    rintro ⟨a, b⟩ hp
    have hmem := List.of_mem_zip hp
    exact beq_iff_eq.mpr (by rw [hSrect _ hmem.1, hOZrect _ hmem.2])
  have hUne : addMat OZ S ≠ [] := addMat_ne_nil hOZne hSne
  have hUrect : Rect (addMat OZ S) D := addMat_rect hOZrect hSrect
  set upper := colReduce min (addMat OZ S) 0 with hupperdef
  set offmax := colReduce max OZ 0 with hoffmaxdef
  have hulen : upper.length = D := by
    rw [hupperdef, colReduce_length, headD_length_of_rect hUne hUrect]
  have hmlen : offmax.length = D := by
    rw [hoffmaxdef, colReduce_length, headD_length_of_rect hOZne hOZrect]
  have hub : ∀ k, k < D → upper.getD k 0 =
      reduce1 min (column (addMat OZ S) k 0) 0 := fun k hk =>
    colReduce_getD_of_rect min 0 k hUne hUrect hk
  have hom : ∀ k, k < D → offmax.getD k 0 =
      reduce1 max (column OZ k 0) 0 := fun k hk =>
    colReduce_getD_of_rect max 0 k hOZne hOZrect hk
  have key : ((List.zip upper offmax).any
        (fun p => decide (p.1 ≤ p.2)) = true) ↔
      ∃ k, k < D ∧ reduce1 min (column (addMat OZ S) k 0) 0 ≤
        reduce1 max (column OZ k 0) 0 := by
    rw [List.any_eq_true]
    constructor
    · rintro ⟨x, hx, hpx⟩
      rcases List.mem_iff_getElem.mp hx with ⟨i, hi, heq⟩
      have hiD : i < D := by
        rw [List.length_zip, hulen, hmlen, min_self] at hi
        exact hi
      refine ⟨i, hiD, ?_⟩
      have hiu : i < upper.length := by omega
      have him : i < offmax.length := by omega
      rw [List.getElem_zip] at heq
      have h1 : upper[i] = upper.getD i 0 :=
        (List.getD_eq_getElem _ _ hiu).symm
      have h2 : offmax[i] = offmax.getD i 0 :=
        (List.getD_eq_getElem _ _ him).symm
      have hle : x.1 ≤ x.2 := of_decide_eq_true hpx
      rw [← heq] at hle
      simp only [h1, h2, hub i hiD, hom i hiD] at hle
      exact hle
    · rintro ⟨k, hk, hle⟩
      have hkz : k < (List.zip upper offmax).length := by
        rw [List.length_zip, hulen, hmlen, min_self]
        exact hk
      refine ⟨(List.zip upper offmax)[k], List.getElem_mem hkz, ?_⟩
      apply decide_eq_true
      rw [List.getElem_zip]
      have hku : k < upper.length := by omega
      have hkm : k < offmax.length := by omega
      have h1 : upper[k] = upper.getD k 0 :=
        (List.getD_eq_getElem _ _ hku).symm
      have h2 : offmax[k] = offmax.getD k 0 :=
        (List.getD_eq_getElem _ _ hkm).symm
      simp only [h1, h2, hub k hk, hom k hk]
      exact hle
  set starts := OZ.map (fun r => List.zipWith (fun m x => m - x) offmax r)
    with hstartsdef
  set stops := OZ.map (fun r => List.zipWith (fun u x => u - x) upper r)
    with hstopsdef
  have hss : offsets2slice_startstops shapes offsets "inner" sxyz oxyz =
      (if (List.zip upper offmax).any (fun p => decide (p.1 ≤ p.2)) then
        .error .overlap
      else .ok (List.zip starts stops)) := by
    unfold offsets2slice_startstops
    rw [if_neg (by simp [hsame]), if_neg (by decide), if_pos rfl]
  by_cases hany : (List.zip upper offmax).any
      (fun p => decide (p.1 ≤ p.2)) = true
  · rw [if_pos hany] at hss
    constructor
    · refine iff_of_true ?_ (key.mp hany)
      unfold offsets2slice
      rw [hss]
      rfl
    · intro L hL
      unfold offsets2slice at hL
      rw [hss] at hL
      cases hL
  · rw [if_neg (by simpa using hany)] at hss
    constructor
    · refine iff_of_false ?_ ?_
      · unfold offsets2slice
        rw [hss]
        simp [Except.map]
      · intro hex
        exact hany (key.mpr hex)
    · intro L hL
      unfold offsets2slice at hL
      rw [hss] at hL
      simp only [Except.map, Except.ok.injEq] at hL
      have hstlen : starts.length = offsets.length := by
        rw [hstartsdef, List.length_map, hOZlen]
      have hsplen : stops.length = offsets.length := by
        rw [hstopsdef, List.length_map, hOZlen]
      have hzlen : (List.zip starts stops).length = offsets.length := by
        rw [List.length_zip, hstlen, hsplen, min_self]
      subst hL
      constructor
      · rw [List.length_map, List.enum_length, hzlen]
      · intro i k hi hk
        have hie : i < (List.zip starts stops).enum.length := by
          rw [List.enum_length, hzlen]
          exact hi
        have hiz : i < (List.zip starts stops).length := by
          rw [hzlen]; exact hi
        have hoi : i < OZ.length := by omega
        have hrowlen : (OZ.getD i []).length = D := by
          apply hOZrect
          rw [List.getD_eq_getElem _ _ hoi]
          exact List.getElem_mem hoi
        rw [getD_map _ _ i ((0 : ℕ), (([] : List ℤ), ([] : List ℤ))) [] hie]
        rw [List.getD_eq_getElem _ _ hie, List.getElem_enum,
          List.getElem_zip]
        rw [if_neg (by simp)]
        simp only [List.nil_append]
        have hist : i < starts.length := by omega
        have hisp : i < stops.length := by omega
        have hsi : starts[i] =
            List.zipWith (fun m x => m - x) offmax (OZ.getD i []) := by
          simp only [hstartsdef, List.getElem_map]
          congr 1
          exact (List.getD_eq_getElem _ _ hoi).symm
        have hpi : stops[i] =
            List.zipWith (fun u x => u - x) upper (OZ.getD i []) := by
          simp only [hstopsdef, List.getElem_map]
          congr 1
          exact (List.getD_eq_getElem _ _ hoi).symm
        rw [hsi, hpi]
        have hkzip : k < (List.zipWith (fun m x => m - x) offmax
            (OZ.getD i [])).length := by
          rw [List.length_zipWith, hmlen, hrowlen, min_self]
          exact hk
        have hkzip2 : k < (List.zip
            (List.zipWith (fun m x => m - x) offmax (OZ.getD i []))
            (List.zipWith (fun u x => u - x) upper (OZ.getD i []))).length := by
          rw [List.length_zip, List.length_zipWith, List.length_zipWith,
            hmlen, hulen, hrowlen]
          simp
          exact hk
        rw [getD_map _ _ k ((0 : ℤ), (0 : ℤ)) (PySlice.mk none none none)
          hkzip2]
        rw [List.getD_eq_getElem _ _ hkzip2, List.getElem_zip]
        have hkzipS : k < (List.zipWith (fun u x => u - x) upper
            (OZ.getD i [])).length := by
          rw [List.length_zipWith, hulen, hrowlen, min_self]
          exact hk
        have e1 : (List.zipWith (fun m x => m - x) offmax
            (OZ.getD i []))[k] =
            offmax.getD k 0 - (OZ.getD i []).getD k 0 := by
          rw [← List.getD_eq_getElem _ (0 : ℤ) (by omega)]
          exact getD_zipWith _ _ _ k 0 0 0 (by omega) (by omega)
        have e2 : (List.zipWith (fun u x => u - x) upper
            (OZ.getD i []))[k] =
            upper.getD k 0 - (OZ.getD i []).getD k 0 := by
          rw [← List.getD_eq_getElem _ (0 : ℤ) hkzipS]
          exact getD_zipWith _ _ _ k 0 0 0 (by omega) (by omega)
        rw [e1, e2, hub k hk, hom k hk]

/-- Witness for C3 at a concrete overlapping pair of images. -/
theorem offsets2slice_inner_overlap_iff_witness :
    ([[2],[0]] : Mat) ≠ [] ∧ Rect ([[2],[0]] : Mat) 1 ∧
    Rect ([[5],[5]] : List (List ℤ)) 1 ∧
    ([[5],[5]] : List (List ℤ)).length = ([[2],[0]] : Mat).length ∧
    (offsets2slice [[5],[5]] [[2],[0]] "inner" false true false =
        .error .overlap ↔
      ∃ k, k < 1 ∧
        reduce1 min (column (addMat (regularize_offsets_int [[2],[0]] true)
          (flipRows [[5],[5]] false)) k 0) 0 ≤
        reduce1 max
          (column (regularize_offsets_int [[2],[0]] true) k 0) 0) :=
  ⟨by decide, by decide, by decide, by decide,
    (offsets2slice_inner_overlap_iff [[5],[5]] [[2],[0]] 1 false true false
      (by decide) (by decide) (by decide) (by decide)).1⟩

theorem ndfy_singleton (x : α) (nd : ℕ) :
    ndfy [x] nd = .ok (List.replicate nd x) := by
  unfold ndfy
  by_cases h : ([x] : List α).length = nd
  · rw [if_pos h]
    simp only [List.length_singleton] at h
    subst h
    rfl
  · rw [if_neg h]

theorem mapM_ndfy_pairs (l : List ℤ) :
    l.mapM (fun b => ndfy [b] 2) = .ok (l.map (fun b => [b, b])) := by
  induction l with
  | nil => rfl
  | cons x xs ih =>
    rw [List.mapM_cons, ih, ndfy_singleton]
    rfl

/-- Every slice produced by `bezel2slice` has step `None`. -/
theorem bezel2slice_step_none (bezels : List (List ℤ)) (xyz : Bool) :
    ∀ s ∈ bezel2slice bezels xyz, s.step = none := by
  intro s hs
  unfold bezel2slice at hs
  rcases List.mem_map.mp hs with ⟨b, _, rfl⟩
  rfl

theorem except_bind_ok {α β : Type} (v : α) (f : α → Except NdError β) :
    Bind.bind (Except.ok v) f = f v := rfl

/-- C7 counterexample: `slicefy` on the single native slice
`slice(1, 4, 2)` with `ndim=2` returns the slice replicated twice
(step 2 preserved), which is not `bezel2slice` of any bezel pairs,
because every `bezel2slice` output has step `None`.  So a single native
slice is not treated as a bezel specification. -/
theorem slicefy_single_slice_cex :
    slicefy (.rslice (PySlice.mk (some 1) (some 4) (some 2))) 2 true =
      .ok [PySlice.mk (some 1) (some 4) (some 2),
        PySlice.mk (some 1) (some 4) (some 2)] ∧
    ¬ isBezelOutput [PySlice.mk (some 1) (some 4) (some 2),
        PySlice.mk (some 1) (some 4) (some 2)] := by
  constructor
  · decide
  · rintro ⟨bz, xyz, hbz⟩
    have hstep := bezel2slice_step_none bz xyz
      (PySlice.mk (some 1) (some 4) (some 2)) (by rw [hbz]; simp)
    cases hstep

/-- C7 (amended): a single integer and a (nonempty) sequence of integers
given to `slicefy` are treated as bezel specifications — each element is
broadcast via `ndfy` to a `[lower, upper]` pair, the pairs are broadcast
to `ndim` axes, and the result is `bezel2slice` of those pairs; but a
single native slice is instead broadcast via `ndfy` to `ndim` copies and
returned as-is (not passed through `bezel2slice`). -/
theorem slicefy_bezel_spec :
    (∀ (n : ℤ) (ndim : ℕ) (xyz : Bool),
      slicefy (.rint n) ndim xyz =
        .ok (bezel2slice (List.replicate ndim [n, n]) xyz)) ∧
    (∀ (l : List ℤ) (ndim : ℕ) (xyz : Bool), l ≠ [] →
      slicefy (.rints l) ndim xyz =
        (ndfy (l.map (fun b => [b, b])) ndim).map
          (fun bezels => bezel2slice bezels xyz)) ∧
    (∀ (s : PySlice) (ndim : ℕ) (xyz : Bool),
      slicefy (.rslice s) ndim xyz = .ok (List.replicate ndim s)) := by
  refine ⟨?_, ?_, ?_⟩
  · intro n ndim xyz
    have h1 : slicefy (.rint n) ndim xyz =
        Bind.bind (ndfy [[n, n]] ndim)
          (fun bez => .ok (bezel2slice bez xyz)) := rfl
    rw [h1, ndfy_singleton]
    rfl
  · intro l ndim xyz hl
    cases l with
    | nil => exact absurd rfl hl
    | cons x xs =>
      have h1 : slicefy (.rints (x :: xs)) ndim xyz =
          Bind.bind ((x :: xs).mapM (fun b => ndfy [b] 2))
            (fun pairs => Bind.bind (ndfy pairs ndim)
              (fun bez => .ok (bezel2slice bez xyz))) := rfl
      rw [h1, mapM_ndfy_pairs]
      simp only [except_bind_ok]
      cases hnd : ndfy ((x :: xs).map (fun b => [b, b])) ndim with
      | error e => rfl
      | ok bz => rfl
  · intro s ndim xyz
    have h1 : slicefy (.rslice s) ndim xyz = ndfy [s] ndim := rfl
    rw [h1, ndfy_singleton]

/-- Witness for C7 at the two-integer bezel rule `[1, 2]`, `ndim=2`. -/
theorem slicefy_bezel_spec_witness :
    ([1, 2] : List ℤ) ≠ [] ∧
    slicefy (.rints [1, 2]) 2 true =
      (ndfy (([1, 2] : List ℤ).map (fun b => [b, b])) 2).map
        (fun bezels => bezel2slice bezels true) :=
  ⟨by decide, slicefy_bezel_spec.2.1 [1, 2] 2 true (by decide)⟩

/-! ### Decimal rendering/parsing round trip (for the C5 round-trip) -/

theorem charOfNat_digit (k : ℕ) (hk : k < 10) :
    (Char.ofNat (48 + k)).isDigit = true := by
  interval_cases k <;> decide

theorem charOfNat_toNat (k : ℕ) (hk : k < 10) :
    (Char.ofNat (48 + k)).toNat = 48 + k := by
  interval_cases k <;> decide

theorem natToCharsR_ne_nil (n : ℕ) : natToCharsR n ≠ [] := by
  unfold natToCharsR
  split
  · simp
  · simp

theorem natToCharsR_digits (n : ℕ) :
    ∀ c ∈ natToCharsR n, c.isDigit = true := by
  induction n using Nat.strong_induction_on with
  | _ n ih =>
    rcases Nat.lt_or_ge n 10 with h10 | h10
    · unfold natToCharsR
      rw [dif_pos h10]
      intro c hc
      simp only [List.mem_singleton] at hc
      subst hc
      exact charOfNat_digit n h10
    · unfold natToCharsR
      rw [dif_neg (by omega)]
      intro c hc
      rcases List.mem_append.mp hc with hmem | hmem
      · exact ih (n / 10) (Nat.div_lt_self (by omega) (by omega)) c hmem
      · simp only [List.mem_singleton] at hmem
        subst hmem
        exact charOfNat_digit (n % 10) (Nat.mod_lt n (by omega))

theorem parseNat_natToCharsR (n : ℕ) :
    parseNatChars (natToCharsR n) = some n := by
  induction n using Nat.strong_induction_on with
  | _ n ih =>
    rcases Nat.lt_or_ge n 10 with h10 | h10
    · unfold natToCharsR
      rw [dif_pos h10]
      interval_cases n <;> decide
    · unfold natToCharsR
      rw [dif_neg (by omega)]
      have hrec := ih (n / 10) (Nat.div_lt_self (by omega) (by omega))
      have hA_dig : (natToCharsR (n / 10)).all Char.isDigit = true :=
        List.all_eq_true.mpr (natToCharsR_digits (n / 10))
      unfold parseNatChars at hrec ⊢
      rw [if_pos ⟨natToCharsR_ne_nil (n / 10), hA_dig⟩] at hrec
      have hfold : (natToCharsR (n / 10)).foldl
          (fun a c => 10 * a + (c.toNat - 48)) 0 = n / 10 :=
        Option.some.inj hrec
      have happ_dig : ((natToCharsR (n / 10)) ++
          [Char.ofNat (48 + n % 10)]).all Char.isDigit = true := by
        apply List.all_eq_true.mpr
        intro c hc
        rcases List.mem_append.mp hc with hmem | hmem
        · exact natToCharsR_digits (n / 10) c hmem
        · simp only [List.mem_singleton] at hmem
          subst hmem
          exact charOfNat_digit (n % 10) (Nat.mod_lt n (by omega))
      rw [if_pos ⟨by simp, happ_dig⟩]
      rw [List.foldl_append, hfold]
      simp only [List.foldl_cons, List.foldl_nil]
      rw [charOfNat_toNat (n % 10) (Nat.mod_lt n (by omega))]
      congr 1
      omega

theorem intToChars_nonneg_eq (m : ℤ) (hm : 0 ≤ m) :
    intToChars m = natToCharsR m.toNat := by
  unfold intToChars
  rw [if_neg (by omega), natToChars_eq_R]

theorem intToChars_nonneg_digits (m : ℤ) (hm : 0 ≤ m) :
    ∀ c ∈ intToChars m, c.isDigit = true := by
  rw [intToChars_nonneg_eq m hm]
  exact natToCharsR_digits m.toNat

theorem intToChars_ne_nil (m : ℤ) (hm : 0 ≤ m) : intToChars m ≠ [] := by
  rw [intToChars_nonneg_eq m hm]
  exact natToCharsR_ne_nil m.toNat

theorem parseIntChars_digits (l : List Char) (hne : l ≠ [])
    (hd : ∀ c ∈ l, c.isDigit = true) :
    parseIntChars l = (parseNatChars l).map (fun n : ℕ => (n : ℤ)) := by
  cases l with
  | nil => exact absurd rfl hne
  | cons c cs =>
    have hcm : c ≠ '-' := by
      intro hc
      have := hd c (List.mem_cons_self c cs)
      rw [hc] at this
      cases this
    have hcp : c ≠ '+' := by
      intro hc
      have := hd c (List.mem_cons_self c cs)
      rw [hc] at this
      cases this
    unfold parseIntChars
    dsimp only
    rw [if_neg hcm, if_neg hcp]

/-- Parsing inverts the `%d` rendering of a nonnegative integer. -/
theorem parse_int_roundtrip (m : ℤ) (hm : 0 ≤ m) :
    parseIntChars (intToChars m) = some m := by
  rw [intToChars_nonneg_eq m hm,
    parseIntChars_digits _ (natToCharsR_ne_nil _) (natToCharsR_digits _),
    parseNat_natToCharsR]
  rw [Option.map_some']
  rw [Int.toNat_of_nonneg hm]

/-! ### Splitting, stripping and replacing (for the C5 round-trip) -/

theorem intercalate_singleton (c : Char) (f : List Char) :
    List.intercalate [c] [f] = f := by
  simp [List.intercalate]

theorem intercalate_cons_cons (c : Char) (f g : List Char)
    (rest : List (List Char)) :
    List.intercalate [c] (f :: g :: rest) =
      f ++ c :: List.intercalate [c] (g :: rest) := by
  simp [List.intercalate, List.intersperse_cons_cons]

theorem pySplit_ne_nil (c : Char) (l : List Char) : pySplit c l ≠ [] := by
  induction l with
  | nil => simp [pySplit]
  | cons x xs ih =>
    unfold pySplit
    cases h : pySplit c xs with
    | nil => simp
    | cons r rs =>
      dsimp only
      by_cases hx : x = c
      · rw [if_pos hx]
        simp
      · rw [if_neg hx]
        simp

theorem pySplit_no_sep (c : Char) (l : List Char) (h : c ∉ l) :
    pySplit c l = [l] := by
  induction l with
  | nil => rfl
  | cons x xs ih =>
    have hx : x ≠ c := fun he => h (he ▸ List.mem_cons_self x xs)
    have hxs : c ∉ xs := fun hm => h (List.mem_cons_of_mem x hm)
    unfold pySplit
    rw [ih hxs]
    dsimp only
    rw [if_neg hx]

theorem pySplit_cons_sep (c : Char) (t : List Char) :
    pySplit c (c :: t) = [] :: pySplit c t := by
  have h1 : pySplit c (c :: t) =
      match pySplit c t with
      | [] => [[]]
      | r :: rs => if c = c then [] :: r :: rs else (c :: r) :: rs := rfl
  rw [h1]
  cases h : pySplit c t with
  | nil => exact absurd h (pySplit_ne_nil c t)
  | cons r rs =>
    dsimp only
    rw [if_pos rfl]

theorem pySplit_append_sep (c : Char) (A t : List Char) (hA : c ∉ A) :
    pySplit c (A ++ c :: t) = A :: pySplit c t := by
  induction A with
  | nil =>
    simp only [List.nil_append]
    exact pySplit_cons_sep c t
  | cons x xs ih =>
    have hx : x ≠ c := fun he => hA (he ▸ List.mem_cons_self x xs)
    have hxs : c ∉ xs := fun hm => hA (List.mem_cons_of_mem x hm)
    have h1 : pySplit c ((x :: xs) ++ c :: t) =
        match pySplit c (xs ++ c :: t) with
        | [] => [[]]
        | r :: rs => if x = c then [] :: r :: rs else (x :: r) :: rs := rfl
    rw [h1, ih hxs]
    dsimp only
    rw [if_neg hx]

theorem pySplit_intercalate (c : Char) (fields : List (List Char))
    (hne : fields ≠ []) (hf : ∀ f ∈ fields, c ∉ f) :
    pySplit c (List.intercalate [c] fields) = fields := by
  induction fields with
  | nil => exact absurd rfl hne
  | cons f rest ih =>
    cases rest with
    | nil =>
      rw [intercalate_singleton]
      exact pySplit_no_sep c f (hf f (List.mem_cons_self f []))
    | cons g rest' =>
      rw [intercalate_cons_cons]
      rw [pySplit_append_sep c f _ (hf f (List.mem_cons_self f _))]
      rw [ih (by simp) (fun x hx => hf x (List.mem_cons_of_mem f hx))]

theorem replaceSub_not_mem (p : Char) (ps repl s : List Char)
    (h : p ∉ s) : replaceSub p ps repl s = s := by
  induction s with
  | nil =>
    unfold replaceSub
    rfl
  | cons c cs ih =>
    have hpc : ¬ (p :: ps).isPrefixOf (c :: cs) = true := by
      intro hpre
      rw [List.isPrefixOf_cons₂] at hpre
      rcases Bool.and_eq_true _ _ ▸ hpre with ⟨h1, _⟩
      exact h (beq_iff_eq.mp h1 ▸ List.mem_cons_self c cs)
    unfold replaceSub
    rw [if_neg hpc, ih (fun hm => h (List.mem_cons_of_mem c hm))]

theorem dropWhile_of_head_neg (P : Char → Bool) (l : List Char)
    (hne : l ≠ []) (hh : ∀ c, l.head? = some c → P c = false) :
    l.dropWhile P = l := by
  cases l with
  | nil => exact absurd rfl hne
  | cons x xs =>
    rw [List.dropWhile_cons, hh x rfl]
    simp

theorem stripChars_bracket (inner : List Char) (hne : inner ≠ [])
    (hh : ∀ c, inner.head? = some c → c ∉ (['[', ']'] : List Char))
    (hl : ∀ c, inner.getLast? = some c → c ∉ (['[', ']'] : List Char)) :
    stripChars ['[', ']'] (('[' :: inner) ++ [']']) = inner := by
  unfold stripChars
  rw [List.cons_append, List.dropWhile_cons]
  rw [if_pos (by decide)]
  rw [dropWhile_of_head_neg _ (inner ++ [']']) (by simp) (by
    intro c hc
    cases inner with
    | nil => exact absurd rfl hne
    | cons x xs =>
      simp only [List.cons_append, List.head?_cons, Option.some.injEq] at hc
      subst hc
      exact decide_eq_false (hh x rfl))]
  rw [List.reverse_append]
  simp only [List.reverse_cons, List.reverse_nil, List.nil_append,
    List.singleton_append]
  rw [List.dropWhile_cons]
  rw [if_pos (by decide)]
  rw [dropWhile_of_head_neg _ inner.reverse (by simpa using hne) (by
    intro c hc
    rw [List.head?_reverse] at hc
    exact decide_eq_false (hl c hc))]
  exact List.reverse_reverse inner

/-- `mapM` of a pointwise-successful function. -/
theorem mapM_ok_of_forall {α β : Type} (f : α → Except NdError β)
    (g : α → β) (l : List α) (h : ∀ x ∈ l, f x = .ok (g x)) :
    l.mapM f = .ok (l.map g) := by
  induction l with
  | nil => rfl
  | cons x xs ih =>
    rw [List.mapM_cons, h x (List.mem_cons_self x xs),
      ih (fun y hy => h y (List.mem_cons_of_mem x hy))]
    rfl

theorem except_pure_eq_ok {α : Type} (v : α) :
    (pure v : Except NdError α) = .ok v := rfl

/-- Parsing one rendered `start+1:stop` field recovers the two bounds. -/
theorem parseField_rendered (a b : ℤ) (ha : 0 ≤ a) (hb : 0 ≤ b) :
    parseField (intToChars a ++ ':' :: intToChars b) =
      .ok (PySlice.mk (some a) (some b) none) := by
  have hca : ':' ∉ intToChars a := by
    intro hm
    have := intToChars_nonneg_digits a ha ':' hm
    cases this
  have hcb : ':' ∉ intToChars b := by
    intro hm
    have := intToChars_nonneg_digits b hb ':' hm
    cases this
  unfold parseField
  rw [pySplit_append_sep ':' _ _ hca, pySplit_no_sep ':' _ hcb]
  simp only [List.mapM_cons, List.mapM_nil]
  rw [if_neg (intToChars_ne_nil a ha), if_neg (intToChars_ne_nil b hb),
    parse_int_roundtrip a ha, parse_int_roundtrip b hb]
  rfl

/-- Converting back one rendered FITS field with `0 ≤ a < b` just
removes the +1 on the start. -/
theorem defitsify_rendered (a b : ℤ) (ha : 0 ≤ a) (hab : a < b) :
    defitsify_one (PySlice.mk (some (a + 1)) (some b) none) =
      .ok (PySlice.mk (some a) (some b) none) := by
  unfold defitsify_one
  rw [if_neg (by
    simp only [Option.map_some', Option.any_some, decide_eq_true_eq]
    omega)]
  rw [if_neg (by
    simp only [Option.any_some, decide_eq_true_eq]
    omega)]
  dsimp only
  rw [if_neg (by omega : ¬ a + 1 > b)]
  simp only [Option.map_some']
  have h1 : a + 1 - 1 = a := by ring
  rw [h1]

theorem mem_intercalate_singleton (x : Char) (ls : List (List Char))
    (c : Char) (hc : c ∈ List.intercalate [x] ls) :
    c = x ∨ ∃ l ∈ ls, c ∈ l := by
  induction ls with
  | nil => simp [List.intercalate] at hc
  | cons f rest ih =>
    cases rest with
    | nil =>
      rw [intercalate_singleton] at hc
      exact Or.inr ⟨f, List.mem_cons_self f [], hc⟩
    | cons g rest' =>
      rw [intercalate_cons_cons] at hc
      rcases List.mem_append.mp hc with hm | hm
      · exact Or.inr ⟨f, List.mem_cons_self f _, hm⟩
      · rcases List.mem_cons.mp hm with rfl | hm'
        · exact Or.inl rfl
        · rcases ih hm' with h | ⟨l, hl, hcl⟩
          · exact Or.inl h
          · exact Or.inr ⟨l, List.mem_cons_of_mem f hl, hcl⟩

theorem mapM_map_ok {α β γ : Type} (g : α → β) (f : β → Except NdError γ)
    (gg : α → γ) (l : List α) (h : ∀ x ∈ l, f (g x) = .ok (gg x)) :
    (l.map g).mapM f = .ok (l.map gg) := by
  induction l with
  | nil => rfl
  | cons x xs ih =>
    rw [List.map_cons, List.mapM_cons, h x (List.mem_cons_self x xs),
      ih (fun y hy => h y (List.mem_cons_of_mem x hy))]
    rfl

/-- Characters that can occur between the brackets of a rendered
section string. -/
theorem rendered_char_facts (c : Char)
    (h : c.isDigit = true ∨ c = ':' ∨ c = ',') :
    c ≠ ' ' ∧ c ∉ (['[', ']'] : List Char) ∧ c ≠ '-' ∧ c ≠ '*' := by
  rcases h with hd | rfl | rfl
  · refine ⟨fun he => absurd (he ▸ hd) (by decide), ?_,
      fun he => absurd (he ▸ hd) (by decide),
      fun he => absurd (he ▸ hd) (by decide)⟩
    intro hm
    rcases List.mem_cons.mp hm with rfl | hm'
    · exact absurd hd (by decide)
    · rcases List.mem_cons.mp hm' with rfl | hm''
      · exact absurd hd (by decide)
      · simp at hm''
  · exact ⟨by decide, by decide, by decide, by decide⟩
  · exact ⟨by decide, by decide, by decide, by decide⟩

/-- Parsing a rendered per-image FITS section string (all starts
nonnegative, all stops strictly larger) recovers exactly the row-major
ranges. -/
theorem parse_rendered_image (pairs : List (ℤ × ℤ)) (hne : pairs ≠ [])
    (hb : ∀ q ∈ pairs, 0 ≤ q.1 ∧ q.1 < q.2) :
    slice_from_string
      ((('[' :: List.intercalate [','] (pairs.map (fun q =>
          intToChars (q.1 + 1) ++ ':' :: intToChars q.2)).reverse)
        ++ [']']).asString) true =
      .ok (pairs.map (fun q => PySlice.mk (some q.1) (some q.2) none)) := by
  set axis : (ℤ × ℤ) → List Char :=
    fun q => intToChars (q.1 + 1) ++ ':' :: intToChars q.2 with haxis
  set frev := (pairs.map axis).reverse with hfrev
  set inner := List.intercalate [','] frev with hinner
  have hfield_chars : ∀ f ∈ frev, ∀ c ∈ f, c.isDigit = true ∨ c = ':' := by
    intro f hf c hc
    rw [hfrev, List.mem_reverse] at hf
    rcases List.mem_map.mp hf with ⟨q, hq, rfl⟩
    rw [haxis] at hc
    rcases List.mem_append.mp hc with hm | hm
    · exact Or.inl (intToChars_nonneg_digits _ (by have := hb q hq; omega)
        c hm)
    · rcases List.mem_cons.mp hm with rfl | hm'
      · exact Or.inr rfl
      · exact Or.inl (intToChars_nonneg_digits _ (by have := hb q hq; omega)
          c hm')
  have hfield_ne : ∀ f ∈ frev, f ≠ [] := by
    intro f hf
    rw [hfrev, List.mem_reverse] at hf
    rcases List.mem_map.mp hf with ⟨q, hq, rfl⟩
    rw [haxis]
    simp
  have hfrev_ne : frev ≠ [] := by
    rw [hfrev]
    simp [hne]
  have hinner_chars : ∀ c ∈ inner, c.isDigit = true ∨ c = ':' ∨ c = ',' := by
    intro c hc
    rw [hinner] at hc
    rcases mem_intercalate_singleton ',' frev c hc with h | ⟨l, hl, hcl⟩
    · exact Or.inr (Or.inr h)
    · rcases hfield_chars l hl c hcl with h | h
      · exact Or.inl h
      · exact Or.inr (Or.inl h)
  have hinner_ne : inner ≠ [] := by
    rw [hinner]
    cases hfv : frev with
    | nil => exact absurd hfv hfrev_ne
    | cons f rest =>
      have hfne : f ≠ [] := hfield_ne f (hfv ▸ List.mem_cons_self f rest)
      cases rest with
      | nil =>
        rw [intercalate_singleton]
        exact hfne
      | cons g r' =>
        rw [intercalate_cons_cons]
        intro habs
        rcases List.append_eq_nil.mp habs with ⟨h1, h2⟩
        cases h2
  have hdash : '-' ∉ inner := by
    intro hm
    exact (rendered_char_facts '-' (hinner_chars '-' hm)).2.2.1 rfl
  have hstar : '*' ∉ inner := by
    intro hm
    exact (rendered_char_facts '*' (hinner_chars '*' hm)).2.2.2 rfl
  have hcomma_fields : ∀ f ∈ frev, ',' ∉ f := by
    intro f hf hm
    rcases hfield_chars f hf ',' hm with h | h
    · exact absurd h (by decide)
    · exact absurd h (by decide)
  unfold slice_from_string
  have htoList : (((('[' :: inner) ++ [']']).asString)).toList =
      ('[' :: inner) ++ [']'] := rfl
  rw [htoList]
  rw [List.filter_eq_self.mpr (by
    intro a ha
    apply decide_eq_true
    rcases List.mem_append.mp ha with hm | hm
    · rcases List.mem_cons.mp hm with rfl | hm'
      · decide
      · exact (rendered_char_facts a (hinner_chars a hm')).1
    · rcases List.mem_cons.mp hm with rfl | hm'
      · decide
      · simp at hm')]
  rw [if_neg (by simp)]
  rw [if_neg (not_not_intro ⟨by
      rw [List.cons_append, List.head?_cons], by
      rw [List.getLast?_concat]⟩)]
  rw [stripChars_bracket inner hinner_ne
    (fun c hc => (rendered_char_facts c
      (hinner_chars c (List.mem_of_mem_head? (hc ▸ rfl)))).2.1)
    (fun c hc => (rendered_char_facts c
      (hinner_chars c (List.mem_of_mem_getLast? (hc ▸ rfl)))).2.1)]
  dsimp only
  rw [if_pos rfl]
  rw [replaceSub_not_mem '-' ['*', ':'] _ inner hdash,
    replaceSub_not_mem '-' ['*'] _ inner hdash,
    replaceSub_not_mem '*' [] _ inner hstar]
  rw [hinner, pySplit_intercalate ',' frev hfrev_ne hcomma_fields]
  rw [hfrev, ← List.map_reverse]
  rw [mapM_map_ok axis parseField
    (fun q => PySlice.mk (some (q.1 + 1)) (some q.2) none) pairs.reverse
    (by
      intro q hq
      rw [List.mem_reverse] at hq
      have hbq := hb q hq
      rw [haxis]
      exact parseField_rendered (q.1 + 1) q.2 (by omega) (by omega))]
  dsimp only
  rw [if_pos rfl]
  unfold _defitsify_slice
  rw [List.map_reverse, List.reverse_reverse]
  rw [mapM_map_ok (fun q => PySlice.mk (some (q.1 + 1)) (some q.2) none)
    defitsify_one (fun q => PySlice.mk (some q.1) (some q.2) none) pairs
    (by
      intro q hq
      have hbq := hb q hq
      exact defitsify_rendered q.1 q.2 hbq.1 hbq.2)]

/-- Every entry of a regularized offset row is nonnegative. -/
theorem regularize_offsets_entry_nonneg (M : Mat) (D : ℕ) (xyz : Bool)
    (hne : M ≠ []) (hrect : Rect M D) :
    ∀ r ∈ regularize_offsets M xyz, ∀ x ∈ r, 0 ≤ x := by
  intro r hr x hx
  have hAne := flipRows_ne_nil M xyz hne
  have hArect := flipRows_rect xyz hrect
  unfold regularize_offsets at hr
  rcases List.mem_map.mp hr with ⟨s, hs, rfl⟩
  rcases List.mem_iff_getElem.mp hx with ⟨k, hk, rfl⟩
  have hkD : k < D := by
    rw [List.length_zipWith, hArect s hs, colReduce_length,
      headD_length_of_rect hAne hArect, min_self] at hk
    exact hk
  rw [List.getElem_zipWith]
  have hkc : k < (colReduce min (flipRows M xyz) 0).length := by
    rw [colReduce_length, headD_length_of_rect hAne hArect]
    exact hkD
  have hks : k < s.length := by
    rw [hArect s hs]
    exact hkD
  have hmins : (colReduce min (flipRows M xyz) 0)[k] =
      reduce1 min (column (flipRows M xyz) k 0) 0 := by
    rw [← List.getD_eq_getElem _ (0 : ℚ) hkc]
    exact colReduce_getD_of_rect min 0 k hAne hArect hkD
  rw [hmins]
  have hsk : s[k] = s.getD k 0 :=
    (List.getD_eq_getElem _ _ _).symm
  rw [hsk]
  have hmem : s.getD k 0 ∈ column (flipRows M xyz) k 0 :=
    List.mem_map_of_mem (fun r => r.getD k 0) hs
  exact sub_nonneg.mpr (reduce1_min_le_mem _ 0 _ hmem)

/-- Every entry of the intified regularized offsets is nonnegative. -/
theorem regularize_offsets_int_entry_nonneg (M : Mat) (D : ℕ) (xyz : Bool)
    (hne : M ≠ []) (hrect : Rect M D) :
    ∀ r ∈ regularize_offsets_int M xyz, ∀ x ∈ r, 0 ≤ x := by
  intro r hr x hx
  unfold regularize_offsets_int at hr
  rcases List.mem_map.mp hr with ⟨s, hs, rfl⟩
  rcases List.mem_map.mp hx with ⟨y, hy, rfl⟩
  exact around_nonneg y (regularize_offsets_entry_nonneg M D xyz hne hrect
    s hs y hy)

/-- C9: a multi-input `listify` call (two or more arguments, default
flags) reduces each argument independently to a sequence
(`listify_single`: `None` to `[None]`, scalar wrapped, sequence kept),
fails with `InvalidLength` iff some resulting length is neither 1 nor
the maximum length observed, and on success replicates every length-1
sequence to the maximum length, all returned sequences sharing it. -/
theorem listify_multi_broadcast_spec (objs : List (BVal ℤ))
    (_h2 : 2 ≤ objs.length) :
    (listify_multi objs = .error .invalidLength ↔
      ¬ ∀ l ∈ objs.map listify_single, l.length = 1 ∨
        l.length = ((objs.map listify_single).map List.length).foldl max 0) ∧
    (∀ res, listify_multi objs = .ok res →
      res.length = objs.length ∧
      (∀ s ∈ res, s.length =
        ((objs.map listify_single).map List.length).foldl max 0) ∧
      res = (objs.map listify_single).map (fun l =>
        if l.length = 1 then
          List.replicate
            (((objs.map listify_single).map List.length).foldl max 0)
            (l.headD none)
        else l)) := by
  have hmax : ∀ l ∈ objs.map listify_single, l.length ≤
      ((objs.map listify_single).map List.length).foldl max 0 := by
    intro l hl
    exact le_trans
      (mem_le_foldl_max _ 0 l.length (List.mem_map_of_mem List.length hl))
      (le_refl _)
  by_cases hall : ((objs.map listify_single).map List.length).all
      (fun n => n == 1 ||
        n == ((objs.map listify_single).map List.length).foldl max 0) = true
  · have hok : listify_multi objs = .ok ((objs.map listify_single).map
        (fun l => if l.length = 1 then
          List.replicate
            (((objs.map listify_single).map List.length).foldl max 0)
            (l.headD none)
        else l)) := by
      unfold listify_multi
      rw [if_pos hall]
    constructor
    · rw [hok]
      refine iff_of_false (by simp) ?_
      intro hneg
      apply hneg
      intro l hl
      have := List.all_eq_true.mp hall l.length
        (List.mem_map_of_mem List.length hl)
      rcases Bool.or_eq_true _ _ ▸ this with h1 | h1
      · exact Or.inl (by exact_mod_cast beq_iff_eq.mp h1)
      · exact Or.inr (by exact_mod_cast beq_iff_eq.mp h1)
    · intro res hres
      rw [hok] at hres
      have hreseq := (Except.ok.injEq _ _).mp hres
      subst hreseq
      refine ⟨by simp, ?_, rfl⟩
      intro s hs
      rcases List.mem_map.mp hs with ⟨l, hl, rfl⟩
      by_cases h1 : l.length = 1
      · rw [if_pos h1, List.length_replicate]
      · rw [if_neg h1]
        have := List.all_eq_true.mp hall l.length
          (List.mem_map_of_mem List.length hl)
        rcases Bool.or_eq_true _ _ ▸ this with hx | hx
        · exact absurd (by exact_mod_cast beq_iff_eq.mp hx) h1
        · exact (by exact_mod_cast beq_iff_eq.mp hx)
  · have herr : listify_multi objs = .error .invalidLength := by
      unfold listify_multi
      rw [if_neg hall]
    constructor
    · rw [herr]
      refine iff_of_true rfl ?_
      intro hpos
      apply hall
      apply List.all_eq_true.mpr
      intro n hn
      rcases List.mem_map.mp hn with ⟨l, hl, rfl⟩
      rcases hpos l hl with h1 | h1
      · exact Bool.or_eq_true _ _ ▸ Or.inl (beq_iff_eq.mpr h1)
      · exact Bool.or_eq_true _ _ ▸ Or.inr (beq_iff_eq.mpr h1)
    · intro res hres
      rw [herr] at hres
      cases hres

/-- Witness for C9 at `listify([1,2], 7, None)`: broadcast to three
length-2 sequences. -/
theorem listify_multi_broadcast_spec_witness :
    2 ≤ ([BVal.bseq [1,2], BVal.bscalar 7, BVal.bnone] : List (BVal ℤ)).length ∧
    listify_multi ([BVal.bseq [1,2], BVal.bscalar 7, BVal.bnone] :
        List (BVal ℤ)) =
      .ok [[some 1, some 2], [some 7, some 7], [none, none]] ∧
    ([[some 1, some 2], [some 7, some 7], [none, none]] :
        List (List (Option ℤ))).length = 3 ∧
    ∀ s ∈ ([[some 1, some 2], [some 7, some 7], [none, none]] :
        List (List (Option ℤ))), s.length =
      ((([BVal.bseq [1,2], BVal.bscalar 7, BVal.bnone] :
        List (BVal ℤ)).map listify_single).map List.length).foldl max 0 :=
  ⟨by decide, by decide, by decide, by

    have h := (listify_multi_broadcast_spec
      [BVal.bseq [1,2], BVal.bscalar 7, BVal.bnone] (by decide)).2
      [[some 1, some 2], [some 7, some 7], [none, none]] (by decide)
    exact h.2.1⟩

/-- C8: in the FITS-to-python slice conversion of `slice_from_string`
(`_defitsify_slice`): a present start is decremented by 1 on every
success; a start whose decrement is negative fails with `InvalidIndex`;
a negative stop fails with `InvalidIndex`; when FITS `start > stop` the
field becomes a reversed range with step `-1` (or the negated given
step) and stop `None` exactly when the FITS stop is `1` (else
`stop - 2`); and the axis list is reversed to row-major order. -/
theorem defitsify_fits_conversion_spec :
    (∀ (s : PySlice) (a : ℤ), s.start = some a → a - 1 < 0 →
      defitsify_one s = .error .invalidIndex) ∧
    (∀ (s : PySlice) (b : ℤ), s.stop = some b → b < 0 →
      defitsify_one s = .error .invalidIndex) ∧
    (∀ s r : PySlice, defitsify_one s = .ok r →
      r.start = s.start.map (fun a => a - 1)) ∧
    (∀ (s : PySlice) (a b : ℤ), s.start = some a → s.stop = some b →
      1 ≤ a → 0 ≤ b → b < a →
      defitsify_one s = .ok (PySlice.mk (some (a - 1))
        (if b = 1 then none else some (b - 2))
        (some (match s.step with | none => -1 | some st => -st)))) ∧
    (∀ l res, _defitsify_slice l = .ok res → res.length = l.length ∧
      ∀ i, i < l.length →
        defitsify_one (l.getD (l.length - 1 - i) (PySlice.mk none none none))
          = .ok (res.getD i (PySlice.mk none none none))) := by
  refine ⟨?_, ?_, ?_, ?_, ?_⟩
  · intro s a hs ha
    unfold defitsify_one
    rw [if_pos]
    rw [hs]
    simpa using ha
  · intro s b hs hb
    unfold defitsify_one
    by_cases hstart : (s.start.map (fun a => a - 1)).any
        (fun ns => decide (ns < 0)) = true
    · rw [if_pos hstart]
    · rw [if_neg (by simpa using hstart), if_pos]
      rw [hs]
      simpa using hb
  · intro s r h
    unfold defitsify_one at h
    by_cases hstart : (s.start.map (fun a => a - 1)).any
        (fun ns => decide (ns < 0)) = true
    · rw [if_pos hstart] at h
      cases h
    · rw [if_neg (by simpa using hstart)] at h
      by_cases hstop : s.stop.any (fun st => decide (st < 0)) = true
      · rw [if_pos hstop] at h
        cases h
      · rw [if_neg (by simpa using hstop)] at h
        rcases hs : s.start with _ | a <;> rcases ht : s.stop with _ | b <;>
          rw [hs, ht] at h <;> dsimp only at h
        · exact ((Except.ok.injEq _ _).mp h) ▸ rfl
        · exact ((Except.ok.injEq _ _).mp h) ▸ rfl
        · exact ((Except.ok.injEq _ _).mp h) ▸ rfl
        · by_cases hgt : a > b
          · rw [if_pos hgt] at h
            exact ((Except.ok.injEq _ _).mp h) ▸ rfl
          · rw [if_neg hgt] at h
            exact ((Except.ok.injEq _ _).mp h) ▸ rfl
  · intro s a b hsa hsb ha hb hba
    unfold defitsify_one
    rw [hsa, hsb]
    rw [if_neg (by
        simp only [Option.map_some', Option.any_some, decide_eq_true_eq]
        omega)]
    rw [if_neg (by
        simp only [Option.any_some, decide_eq_true_eq]
        omega)]
    dsimp only
    rw [if_pos (show a > b from hba)]
    rfl
  · intro l res h
    unfold _defitsify_slice at h
    rcases mapM_except_ok_getD defitsify_one l.reverse res
      (PySlice.mk none none none) (PySlice.mk none none none) h with
      ⟨hlen, hpt⟩
    rw [List.length_reverse] at hlen
    refine ⟨hlen, ?_⟩
    intro i hi
    have hir : i < l.reverse.length := by
      rw [List.length_reverse]
      exact hi
    have hrev : l.reverse.getD i (PySlice.mk none none none) =
        l.getD (l.length - 1 - i) (PySlice.mk none none none) := by
      rw [List.getD_eq_getElem _ _ hir, List.getElem_reverse,
        List.getD_eq_getElem _ _ (by
          rw [List.length_reverse] at hir
          omega)]
    rw [← hrev]
    exact hpt i hir

/-- Witness for C8 at the concrete FITS field `5:2` (start 5, stop 2):
converted to the reversed python slice `slice(4, 0, -1)`. -/
theorem defitsify_fits_conversion_spec_witness :
    (PySlice.mk (some 5) (some 2) none).start = some 5 ∧
    (PySlice.mk (some 5) (some 2) none).stop = some 2 ∧
    (1 : ℤ) ≤ 5 ∧ (0 : ℤ) ≤ 2 ∧ (2 : ℤ) < 5 ∧
    defitsify_one (PySlice.mk (some 5) (some 2) none) =
      .ok (PySlice.mk (some 4) (some 0) (some (-1))) :=
  ⟨rfl, rfl, by decide, by decide, by decide, by
    have h1 : (1 : ℤ) ≤ 5 := by decide
    have h2 : (0 : ℤ) ≤ 2 := by decide
    have h3 : (2 : ℤ) < 5 := by decide
    exact defitsify_fits_conversion_spec.2.2.2.1
      (PySlice.mk (some 5) (some 2) none) 5 2 rfl rfl h1 h2 h3⟩

/-- C5: rendering the `method="outer"`, non-stacked ranges of
`offsets2slice` as FITS section strings and reparsing each with
`slice_from_string(fits_convention=True)` yields exactly the per-axis
row-major ranges of the non-FITS call on the same inputs (shapes all
positive, at least one image and one axis). -/
theorem offsets2slice_fits_roundtrip
    (shapes : List (List ℤ)) (offsets : Mat) (D : ℕ) (sxyz oxyz : Bool)
    (hone : offsets ≠ []) (horect : Rect offsets D)
    (hsrect : Rect shapes D) (hlen : shapes.length = offsets.length)
    (hD : 0 < D) (hpos : ∀ r ∈ shapes, ∀ x ∈ r, 0 < x) :
    ∃ strs rngs,
      offsets2slice_fits shapes offsets "outer" sxyz oxyz false =
        .ok strs ∧
      offsets2slice shapes offsets "outer" sxyz oxyz false = .ok rngs ∧
      strs.map (fun s => slice_from_string s true) = rngs.map Except.ok := by
  set OZ := regularize_offsets_int offsets oxyz with hOZdef
  set S := flipRows shapes sxyz with hSdef
  have hOZne : OZ ≠ [] := regularize_offsets_int_ne_nil offsets oxyz hone
  have hOZrect : Rect OZ D := regularize_offsets_int_rect oxyz hone horect
  have hOZlen : OZ.length = offsets.length :=
    regularize_offsets_int_length offsets oxyz
  have hshne : shapes ≠ [] := by
    intro h
    rw [h] at hlen
    simp only [List.length_nil] at hlen
    exact hone (List.length_eq_zero.mp hlen.symm)
  have hSne : S ≠ [] := flipRows_ne_nil shapes sxyz hshne
  have hSrect : Rect S D := flipRows_rect sxyz hsrect
  have hSlen : S.length = shapes.length := flipRows_length shapes sxyz
  have hsame : sameShapeB S OZ = true := by
    unfold sameShapeB
    rw [Bool.and_eq_true]
    refine ⟨beq_iff_eq.mpr (by rw [hSlen, hOZlen, hlen]), ?_⟩
    apply List.all_eq_true.mpr
    rintro ⟨a, b⟩ hp
    have hmem := List.of_mem_zip hp
    exact beq_iff_eq.mpr (by rw [hSrect _ hmem.1, hOZrect _ hmem.2])
  have hSpos : ∀ r ∈ S, ∀ x ∈ r, 0 < x := by
    intro r hr x hx
    rw [hSdef] at hr
    unfold flipRows at hr
    split at hr
    · rcases List.mem_map.mp hr with ⟨s, hs, rfl⟩
      exact hpos s hs x (List.mem_reverse.mp hx)
    · exact hpos r hr x hx
  have hOZnn : ∀ r ∈ OZ, ∀ x ∈ r, 0 ≤ x :=
    regularize_offsets_int_entry_nonneg offsets D oxyz hone horect
  have hss : offsets2slice_startstops shapes offsets "outer" sxyz oxyz =
      .ok (List.zip OZ (addMat OZ S)) := by
    unfold offsets2slice_startstops
    rw [if_neg (by simp [hsame]), if_pos rfl]
  have hAlen : (addMat OZ S).length = offsets.length := by
    unfold addMat
    rw [List.length_zipWith, hOZlen, hSlen, hlen, min_self]
  have hzlen : (List.zip OZ (addMat OZ S)).length = offsets.length := by
    rw [List.length_zip, hOZlen, hAlen, min_self]
  -- the per-image side conditions, index-wise
  have hpairs : ∀ p ∈ (List.zip OZ (addMat OZ S)).enum,
      p.2.1.zip p.2.2 ≠ [] ∧
      ∀ q ∈ p.2.1.zip p.2.2, 0 ≤ q.1 ∧ q.1 < q.2 := by
    intro p hp
    rcases List.mem_iff_getElem.mp hp with ⟨j, hj, hpj⟩
    have hjz : j < (List.zip OZ (addMat OZ S)).length := by
      rw [List.enum_length] at hj
      exact hj
    have hjo : j < OZ.length := by
      rw [List.length_zip] at hjz
      omega
    have hja : j < (addMat OZ S).length := by
      rw [List.length_zip] at hjz
      omega
    have hjs : j < S.length := by
      rw [hSlen, hlen, ← hOZlen]
      exact hjo
    rw [List.getElem_enum, List.getElem_zip] at hpj
    have hp1 : p.2.1 = OZ[j] := by rw [← hpj]
    have hp2 : p.2.2 = (addMat OZ S)[j] := by rw [← hpj]
    have hrowA : (addMat OZ S)[j] =
        List.zipWith (fun x y => x + y) OZ[j] S[j] := by
      unfold addMat
      rw [List.getElem_zipWith]
    have hlo : OZ[j].length = D := hOZrect _ (List.getElem_mem hjo)
    have hls : S[j].length = D := hSrect _ (List.getElem_mem hjs)
    constructor
    · intro hnil
      have : (p.2.1.zip p.2.2).length = 0 := by rw [hnil]; rfl
      rw [List.length_zip, hp1, hp2, hrowA, List.length_zipWith, hlo, hls]
        at this
      omega
    · intro q hq
      rcases List.mem_iff_getElem.mp hq with ⟨k, hk, hqk⟩
      have hkD : k < D := by
        rw [List.length_zip, hp1, hp2, hrowA, List.length_zipWith, hlo, hls]
          at hk
        omega
      rw [List.getElem_zip] at hqk
      have hkb1 : k < p.2.1.length := by
        rw [hp1, hlo]
        exact hkD
      have hkb2 : k < p.2.2.length := by
        rw [hp2, hrowA, List.length_zipWith, hlo, hls, min_self]
        exact hkD
      have hkbo : k < OZ[j].length := by
        rw [hlo]
        exact hkD
      have hkbs : k < S[j].length := by
        rw [hls]
        exact hkD
      have hq1 : q.1 = p.2.1[k] := by rw [← hqk]
      have hq2 : q.2 = p.2.2[k] := by rw [← hqk]
      have hv1 : p.2.1[k] = OZ[j][k] := by
        simp only [hp1]
      have hv2 : p.2.2[k] = OZ[j][k] + S[j][k] := by
        simp only [hp2, hrowA, List.getElem_zipWith]
      have hnn : 0 ≤ OZ[j][k] :=
        hOZnn OZ[j] (List.getElem_mem hjo) _ (List.getElem_mem _)
      have hsp : 0 < S[j][k] :=
        hSpos S[j] (List.getElem_mem hjs) _ (List.getElem_mem _)
      constructor
      · rw [hq1, hv1]
        exact hnn
      · rw [hq1, hq2, hv1, hv2]
        omega
  refine ⟨(List.zip OZ (addMat OZ S)).enum.map (fun p =>
      (('[' :: List.intercalate [',']
        (((List.zip p.2.1 p.2.2).map (fun q =>
          intToChars (q.1 + 1) ++ ':' :: intToChars q.2)).reverse))
        ++ [']']).asString),
    (List.zip OZ (addMat OZ S)).enum.map (fun p =>
      (List.zip p.2.1 p.2.2).map (fun q =>
        PySlice.mk (some q.1) (some q.2) none)), ?_, ?_, ?_⟩
  · unfold offsets2slice_fits
    rw [hss]
    simp only [Except.map, Except.ok.injEq]
    apply List.map_congr_left
    intro p _
    rw [if_neg (by simp)]
    rw [List.nil_append]
  · unfold offsets2slice
    rw [hss]
    simp only [Except.map, Except.ok.injEq]
    apply List.map_congr_left
    intro p _
    rw [if_neg (by simp)]
    rw [List.nil_append]
  · rw [List.map_map, List.map_map]
    apply List.map_congr_left
    intro p hp
    simp only [Function.comp]
    exact parse_rendered_image (p.2.1.zip p.2.2) (hpairs p hp).1
      (hpairs p hp).2

/-- Witness for C5 at the spec's three-image example (without stack). -/
theorem offsets2slice_fits_roundtrip_witness :
    ([[1,1],[-1,1],[19/10,0]] : Mat) ≠ [] ∧
    Rect ([[1,1],[-1,1],[19/10,0]] : Mat) 2 ∧
    Rect ([[10,15],[10,10],[10,10]] : List (List ℤ)) 2 ∧
    ([[10,15],[10,10],[10,10]] : List (List ℤ)).length =
      ([[1,1],[-1,1],[19/10,0]] : Mat).length ∧
    0 < 2 ∧
    (∀ r ∈ ([[10,15],[10,10],[10,10]] : List (List ℤ)), ∀ x ∈ r, 0 < x) ∧
    ∃ strs rngs,
      offsets2slice_fits [[10,15],[10,10],[10,10]] [[1,1],[-1,1],[19/10,0]]
        "outer" false true false = .ok strs ∧
      offsets2slice [[10,15],[10,10],[10,10]] [[1,1],[-1,1],[19/10,0]]
        "outer" false true false = .ok rngs ∧
      strs.map (fun s => slice_from_string s true) = rngs.map Except.ok :=
  ⟨by decide, by decide, by decide, by decide, by decide, by decide,
    offsets2slice_fits_roundtrip [[10,15],[10,10],[10,10]]
      [[1,1],[-1,1],[19/10,0]] 2 false true (by decide) (by decide)
      (by decide) (by decide) (by decide) (by decide)⟩

/-- C10: `offsets2slice` hard-codes `intify_offsets=True` in its offset
normalization: its result depends on the offsets only through
`regularize_offsets_int` (so every start/stop it produces is an
integer), and the concrete example where the regularized offset
component `1.9` contributes the integer start `2`. -/
theorem offsets2slice_always_intifies :
    (∀ (shapes : List (List ℤ)) (offsets offsets' : Mat) (method : String)
       (sxyz oxyz oxyz' stack : Bool),
       regularize_offsets_int offsets oxyz =
         regularize_offsets_int offsets' oxyz' →
       offsets2slice shapes offsets method sxyz oxyz stack =
         offsets2slice shapes offsets' method sxyz oxyz' stack) ∧
    offsets2slice [[5],[5]] [[0],[19/10]] "outer" false false false =
      .ok [[PySlice.mk (some 0) (some 5) none],
        [PySlice.mk (some 2) (some 7) none]] := by
  constructor
  · intro shapes offsets offsets' method sxyz oxyz oxyz' stack h
    unfold offsets2slice offsets2slice_startstops
    rw [h]
  · decide

/-- Witness for C10: integer offsets `[[0],[2]]` and rational offsets
`[[0],[1.9]]` regularize to the same integer matrix, hence produce the
same slices. -/
theorem offsets2slice_always_intifies_witness :
    regularize_offsets_int [[0],[19/10]] false =
      regularize_offsets_int [[0],[2]] false ∧
    offsets2slice [[5],[5]] [[0],[19/10]] "outer" false false false =
      offsets2slice [[5],[5]] [[0],[2]] "outer" false false false :=
  ⟨by decide,
    offsets2slice_always_intifies.1 [[5],[5]] [[0],[19/10]] [[0],[2]]
      "outer" false false false false (by decide)⟩

end AstroNdslice
